import Mathlib

/-!
Verification development for the `json_db` collection engine
(`src/collection.py`).  The engine is embedded shallowly: Python/JSON values
become the inductive type `Value`, documents become ordered association
lists (Python dicts preserve insertion order), a collection state is the
pair of the document sequence and the in-memory index map, and every public
operation of `JSONCollection` becomes a pure function on that state.
File I/O is identity in this embedding: every operation reloads the full
document list and rewrites it, so the file contents and the in-memory list
coincide.  Operations that can raise a Python exception (comparison of
incomparable types, missing `_id` key, unhashable group key) return
`Except PyErr`.  Numbers are modelled as exact rationals: Python ints and
floats are collapsed to their numeric value.
-/

namespace JsonDB

/-- Python exceptions that the engine can raise: `TypeError` from comparing
incomparable values (or hashing an unhashable group key), `KeyError` from
`doc["_id"]` on a document without `_id`. -/
inductive PyErr where
  | typeError
  | keyError
deriving Repr, DecidableEq

/-- JSON-like Python values handled by `collection.py`.  Booleans are kept
separate from numbers because Python `bool` is a distinct type that is
nevertheless a subclass of `int` — this distinction is load-bearing for
`isinstance(v, (int, float))` and for `str(v)`. -/
inductive Value where
  | null
  | bool (b : Bool)
  | num (q : ℚ)
  | str (s : String)
  | list (l : List Value)
  | dict (d : List (String × Value))
deriving Repr

/-- A document: a Python dict with string keys, in insertion order.
`JSONCollection`'s type hints fix documents to `Dict[str, Any]`. -/
abbrev Doc := List (String × Value)

/-- One secondary index: stringified field value → bucket of document ids
(`Dict[str, List[str]]` in the source; ids are stored as the values found
under `_id`, which the engine compares with Python `==`). -/
abbrev Index := List (String × List Value)

/-- The registered indexes: field path → index (`self.indexes`). -/
abbrev Indexes := List (String × Index)

/-- Collection state: the document file contents plus the index map. -/
structure Collection where
  docs : List Doc
  indexes : Indexes
deriving Repr

mutual
/-- Python `==` on values: structural, except that booleans compare equal to
the numbers 1/0 (bool is an int subclass) and mappings compare as
key-value maps.  Dict comparison is length-equality plus a one-sided
entry check, which agrees with Python `==` because dict keys are unique. -/
def pyEq : Value → Value → Bool
  | .null, w => match w with | .null => true | _ => false
  | .bool a, w => match w with
      | .bool b => a == b
      | .num n => (if a then (1 : ℚ) else 0) == n
      | _ => false
  | .num q, w => match w with
      | .num n => q == n
      | .bool b => q == (if b then (1 : ℚ) else 0)
      | _ => false
  | .str s, w => match w with | .str t => s == t | _ => false
  | .list l, w => match w with | .list m => pyEqList l m | _ => false
  | .dict d, w => match w with
      | .dict e => d.length == e.length && pyEqEntries d e
      | _ => false

/-- Python `==` on lists: pointwise, equal length. -/
def pyEqList : List Value → List Value → Bool
  | [], m => m.isEmpty
  | _ :: _, [] => false
  | a :: as, b :: bs => pyEq a b && pyEqList as bs

/-- Every entry of the first dict is present (by key) in the second with an
equal value. -/
def pyEqEntries : List (String × Value) → List (String × Value) → Bool
  | [], _ => true
  | (k, v) :: rest, e => (match e.lookup k with
      | some w => pyEq v w
      | none => false) && pyEqEntries rest e
end

/-- Membership of `x` in a Python list `l` (`x in l`), which tests `x == y`
against each element. -/
def memPy (x : Value) (l : List Value) : Bool :=
  l.any (fun y => pyEq x y)

/-- A single quote character, used by Python `repr` on strings. -/
def sq : String := (Char.ofNat 39).toString

/-- Comma-space separated concatenation, as Python uses inside
`str`/`repr` of containers. -/
def joinComma : List String → String
  | [] => ""
  | [s] => s
  | s :: rest => s ++ ", " ++ joinComma rest

/-- Rendering of a rational number.  Python would print ints as digits and
floats with a decimal point; this model prints the exact value (digits when
integral, `p/q` otherwise).  Only injectivity per numeric value matters for
the index keys. -/
def ratStr (q : ℚ) : String :=
  if q.den = 1 then toString q.num else toString q.num ++ "/" ++ toString q.den

mutual
/-- Python `repr` of a value (what `str` uses for elements of containers). -/
def pyRepr : Value → String
  | .null => "None"
  | .bool true => "True"
  | .bool false => "False"
  | .num q => ratStr q
  | .str s => sq ++ s ++ sq
  | .list l => "[" ++ joinComma (pyReprList l) ++ "]"
  | .dict d => "\x7b" ++ joinComma (pyReprEntries d) ++ "\x7d"

def pyReprList : List Value → List String
  | [] => []
  | v :: rest => pyRepr v :: pyReprList rest

def pyReprEntries : List (String × Value) → List String
  | [] => []
  | (k, v) :: rest => (sq ++ k ++ sq ++ ": " ++ pyRepr v) :: pyReprEntries rest
end

/-- Python `str(value)`: identity on strings, `repr` otherwise. -/
def stringify : Value → String
  | .str s => s
  | v => pyRepr v

/-- Numeric view used by Python's ordered comparisons: numbers are
themselves, booleans are 1/0 (int subclass), everything else has none. -/
def toNum : Value → Option ℚ
  | .num q => some q
  | .bool b => some (if b then 1 else 0)
  | _ => none

mutual
/-- Python `a < b`: numeric (numbers and booleans), lexicographic on
strings, lexicographic-by-element on lists; every other combination raises
`TypeError`. -/
def pyLt : Value → Value → Except PyErr Bool
  | a, b =>
    match toNum a, toNum b with
    | some x, some y => .ok (decide (x < y))
    | _, _ =>
      match a, b with
      | .str s, .str t => .ok (decide (s < t))
      | .list l, .list m => pyLtList l m
      | _, _ => .error .typeError

/-- Python list `<`: skip equal prefixes, compare the first differing
elements (which may raise), shorter is smaller. -/
def pyLtList : List Value → List Value → Except PyErr Bool
  | [], m => .ok (!m.isEmpty)
  | _ :: _, [] => .ok false
  | a :: as, b :: bs => if pyEq a b then pyLtList as bs else pyLt a b
end

mutual
/-- Python `a <= b`: as `pyLt`, with equality allowed. -/
def pyLe : Value → Value → Except PyErr Bool
  | a, b =>
    match toNum a, toNum b with
    | some x, some y => .ok (decide (x ≤ y))
    | _, _ =>
      match a, b with
      | .str s, .str t => .ok (decide (s < t) || s == t)
      | .list l, .list m => pyLeList l m
      | _, _ => .error .typeError

def pyLeList : List Value → List Value → Except PyErr Bool
  | [], _ => .ok true
  | _ :: _, [] => .ok false
  | a :: as, b :: bs => if pyEq a b then pyLeList as bs else pyLt a b
end

/-- Character-list prefix test. -/
def chPre : List Char → List Char → Bool
  | [], _ => true
  | _ :: _, [] => false
  | a :: as, b :: bs => a == b && chPre as bs

/-- Character-list substring test (`pat` occurs inside the second list). -/
def chContains (pat : List Char) : List Char → Bool
  | [] => pat.isEmpty
  | c :: t => chPre pat (c :: t) || chContains pat t

/-- Substring test on strings.  This models `re.search(pat, s)` for the
patterns the engine is given; the regular-expression metacharacter
language is outside every claim, so patterns are taken literally, matching
the spec's substring-search semantics. -/
def strContains (hay pat : String) : Bool :=
  chContains pat.data hay.data

/-- Python `x in c` for a container operand `c` (the `$in` operator):
lists test elementwise `==`, strings test substring of a string operand
(non-string left side raises), dicts test key membership; any other
container raises `TypeError`. -/
def pyIn (x c : Value) : Except PyErr Bool :=
  match c with
  | .list l => .ok (memPy x l)
  | .str t => match x with
      | .str s => .ok (strContains t s)
      | _ => .error .typeError
  | .dict d => .ok (d.any (fun p => pyEq x (.str p.1)))
  | _ => .error .typeError

/-- Python `"a.b.c".split(".")`. -/
def splitDotAux : List Char → List Char → List String
  | [], acc => [String.mk acc.reverse]
  | c :: cs, acc =>
    if c == '.' then String.mk acc.reverse :: splitDotAux cs []
    else splitDotAux cs (c :: acc)

def splitDot (s : String) : List String :=
  splitDotAux s.data []

/-- Field resolution inside `_match`: walk the dotted path with
`val.get(key)` (default `None`); if an intermediate value is not a dict the
whole `_match` call returns `False`, signalled here by `none`. -/
def resolveM : Value → List String → Option Value
  | v, [] => some v
  | .dict d, k :: ks => resolveM ((d.lookup k).getD .null) ks
  | _, _ :: _ => none

/-- One pass over an operator-document inside `_match` (lines 49–63 of
`collection.py`): operators are evaluated in insertion order, the first
failing operator stops the whole `_match` call with `False`, unknown
operator keys are skipped, and a raised comparison aborts with the error. -/
def evalOps (val : Value) : List (String × Value) → Except PyErr Bool
  | [] => .ok true
  | (op, c) :: rest => do
    let r ←
      if op == "$gt" then pyLt c val
      else if op == "$lt" then pyLt val c
      else if op == "$gte" then pyLe c val
      else if op == "$lte" then pyLe val c
      else if op == "$in" then pyIn val c
      else if op == "$regex" then
        match c with
        | .str pat => .ok (strContains (stringify val) pat)
        | _ => .error .typeError
      else if op == "$ne" then .ok (!pyEq val c)
      else .ok true
    if r then evalOps val rest else .ok false

/-- `JSONCollection._match(doc, query)`: conjunction over the query's
clauses, in order, short-circuiting on the first failing clause.  A clause
with a dict value is an operator-document; any other value is plain
equality against the resolved field value. -/
def matchDoc (doc : Doc) : List (String × Value) → Except PyErr Bool
  | [] => .ok true
  | (k, v) :: rest =>
    match resolveM (.dict doc) (splitDot k) with
    | none => .ok false
    | some val =>
      match v with
      | .dict ops => do
        let r ← evalOps val ops
        if r then matchDoc doc rest else .ok false
      | _ => if pyEq val v then matchDoc doc rest else .ok false

/-- Walk of `_get_nested_value` before the final test: `val.get(k, {})`
when `val` is a dict, `{}` otherwise, over the whole path. -/
def getNVaux : Value → List String → Value
  | v, [] => v
  | .dict d, k :: ks => getNVaux ((d.lookup k).getD (.dict [])) ks
  | _, _ :: ks => getNVaux (.dict []) ks

/-- `JSONCollection._get_nested_value`: the walked value, save that a final
value `== {}` (which includes the case of an absent field) is reported as
Python `None`, i.e. `.null`.  A stored `null` value also comes back as
`.null`, indistinguishable to every caller, exactly as in the source. -/
def get_nested_value (doc : Doc) (key : String) : Value :=
  let r := getNVaux (.dict doc) (splitDot key)
  if pyEq r (.dict []) then .null else r

/-- Python `d[k] = v` on an insertion-ordered dict: overwrite in place if
the key exists, append otherwise. -/
def aUpd {β : Type} (d : List (String × β)) (k : String) (v : β) :
    List (String × β) :=
  if d.any (fun p => p.1 == k) then
    d.map (fun p => if p.1 == k then (k, v) else p)
  else d ++ [(k, v)]

/-- The bucket of an index under a stringified value (empty if absent). -/
def bucketOf (idx : Index) (s : String) : List Value :=
  (idx.lookup s).getD []

/-- The `_id` value of a document (`doc["_id"]` raises `KeyError` when
absent, reported by callers via `none`). -/
def docId (d : Doc) : Option Value :=
  d.lookup "_id"

/-- The body of `_update_indexes` for one registered field: resolve the
document's value there; if non-null, stringify it, create the bucket if
missing, and append the document's `_id` unless already present. -/
def updOneField (d : Doc) (fld : String) (idx : Index) : Except PyErr Index :=
  match get_nested_value d fld with
  | .null => .ok idx
  | v =>
    match docId d with
    | none => .error .keyError
    | some i =>
      let s := stringify v
      .ok (match idx.lookup s with
        | none => idx ++ [(s, [i])]
        | some b => if memPy i b then idx else aUpd idx s (b ++ [i]))

/-- `JSONCollection._update_indexes(document)`: apply `updOneField` to
every registered index, in registration order. -/
def update_indexes (idxs : Indexes) (d : Doc) : Except PyErr Indexes :=
  match idxs with
  | [] => .ok []
  | (fld, idx) :: rest => do
    let idx' ← updOneField d fld idx
    let rest' ← update_indexes rest d
    .ok ((fld, idx') :: rest')

/-- Replay `_update_indexes` over a document list (the loop shared by
`_rebuild_indexes` and `create_index`). -/
def replayIndexes (idxs : Indexes) : List Doc → Except PyErr Indexes
  | [] => .ok idxs
  | d :: ds => do
    let idxs' ← update_indexes idxs d
    replayIndexes idxs' ds

/-- `JSONCollection._rebuild_indexes(documents)`: clear every registered
index, then replay every document. -/
def rebuild_indexes (idxs : Indexes) (docs : List Doc) : Except PyErr Indexes :=
  replayIndexes (idxs.map (fun p => (p.1, []))) docs

/-- `JSONCollection._query_using_indexes` (returns `none` for Python
`None`, meaning "no index consultation, fall back to a full scan").
Python materialises `set(...)` intersections; only membership in the
result is ever used, so sets are modelled as lists with first-occurrence
deduplication. -/
def dedupPy (l : List Value) : List Value :=
  l.foldl (fun acc x => if memPy x acc then acc else acc ++ [x]) []

/-- Intersection of two id lists under Python equality. -/
def interPy (a b : List Value) : List Value :=
  a.filter (fun x => memPy x b)

/-- The consultation loop: walk the query's clauses accumulating the
intersection; an operator-document value, an unregistered field, an empty
index (falsy `if index`), or a missing bucket each abort with `none`. -/
def quiAux (idxs : Indexes) (acc : Option (List Value)) :
    List (String × Value) → Option (List Value)
  | [] => acc
  | (fld, v) :: rest =>
    match v with
    | .dict _ => none
    | _ =>
      match idxs.lookup fld with
      | none => none
      | some idx =>
        if idx.isEmpty then none
        else
          match idx.lookup (stringify v) with
          | none => none
          | some b =>
            match acc with
            | none => quiAux idxs (some (dedupPy b)) rest
            | some m => quiAux idxs (some (interPy m (dedupPy b))) rest

def query_using_indexes (idxs : Indexes) (q : List (String × Value)) :
    Option (List Value) :=
  quiAux idxs none q

/-- The filter `[doc for doc in data if doc["_id"] in indexed_results]`
(raises `KeyError` on a document without `_id`). -/
def filterByIds (ids : List Value) : List Doc → Except PyErr (List Doc)
  | [] => .ok []
  | d :: ds => do
    match docId d with
    | none => .error .keyError
    | some i =>
      let rest ← filterByIds ids ds
      .ok (if memPy i ids then d :: rest else rest)

/-- The filter `[doc for doc in data if self._match(doc, query)]`. -/
def filterMatch (q : List (String × Value)) : List Doc → Except PyErr (List Doc)
  | [] => .ok []
  | d :: ds => do
    let m ← matchDoc d q
    let rest ← filterMatch q ds
    .ok (if m then d :: rest else rest)

/-- `JSONCollection.find(query)`. -/
def find (c : Collection) (q : List (String × Value)) :
    Except PyErr (List Doc) := do
  let data ←
    match query_using_indexes c.indexes q with
    | none => pure c.docs
    | some ids => filterByIds ids c.docs
  filterMatch q data

/-- The scan loop of `find_one`: first matching document, if any. -/
def firstMatch (q : List (String × Value)) : List Doc → Except PyErr (Option Doc)
  | [] => .ok none
  | d :: ds => do
    let m ← matchDoc d q
    if m then .ok (some d) else firstMatch q ds

/-- `JSONCollection.find_one(query)`. -/
def find_one (c : Collection) (q : List (String × Value)) :
    Except PyErr (Option Doc) := do
  let data ←
    match query_using_indexes c.indexes q with
    | none => pure c.docs
    | some ids => filterByIds ids c.docs
  firstMatch q data

/-- `JSONCollection.insert_one(document)`: assign `_id` when absent (the
generated `uuid4` string is passed in as `newId`, making the source's
nondeterminism explicit), append the document, update every index with it.
Returns the new collection state. -/
def insert_one (c : Collection) (d : Doc) (newId : String) :
    Except PyErr Collection := do
  let d' := if (d.lookup "_id").isSome then d else d ++ [("_id", .str newId)]
  let idxs' ← update_indexes c.indexes d'
  .ok ⟨c.docs ++ [d'], idxs'⟩

/-- `doc.update(updates)`: shallow merge of the patch, in patch order. -/
def applyPatch (d : Doc) (patch : List (String × Value)) : Doc :=
  patch.foldl (fun acc p => aUpd acc p.1 p.2) d

/-- The loop of `JSONCollection.update`: every matching document is merged
with the patch and `_update_indexes` is run on the merged document, with
the index state threaded through the scan. -/
def updateAux (q patch : List (String × Value)) (idxs : Indexes) :
    List Doc → Except PyErr (List Doc × Indexes)
  | [] => .ok ([], idxs)
  | d :: ds => do
    let m ← matchDoc d q
    if m then
      let d' := applyPatch d patch
      let idxs' ← update_indexes idxs d'
      let (rest, idxsF) ← updateAux q patch idxs' ds
      .ok (d' :: rest, idxsF)
    else
      let (rest, idxsF) ← updateAux q patch idxs ds
      .ok (d :: rest, idxsF)

/-- `JSONCollection.update(query, updates)`. -/
def update (c : Collection) (q patch : List (String × Value)) :
    Except PyErr Collection := do
  let (docs', idxs') ← updateAux q patch c.indexes c.docs
  .ok ⟨docs', idxs'⟩

/-- The filter `[doc for doc in data if not self._match(doc, query)]`. -/
def filterNotMatch (q : List (String × Value)) : List Doc → Except PyErr (List Doc)
  | [] => .ok []
  | d :: ds => do
    let m ← matchDoc d q
    let rest ← filterNotMatch q ds
    .ok (if m then rest else d :: rest)

/-- `JSONCollection.delete(query)`: drop the matching documents, then fully
rebuild every registered index from the remaining ones. -/
def delete (c : Collection) (q : List (String × Value)) :
    Except PyErr Collection := do
  let newData ← filterNotMatch q c.docs
  let idxs' ← rebuild_indexes c.indexes newData
  .ok ⟨newData, idxs'⟩

/-- `JSONCollection.create_index(field)`: register an empty index under the
field (overwriting any previous one), then run `_update_indexes` — which
touches every registered index — over the whole document set. -/
def create_index (c : Collection) (fld : String) : Except PyErr Collection := do
  let idxs' ← replayIndexes (aUpd c.indexes fld []) c.docs
  .ok ⟨c.docs, idxs'⟩

/-- The group key of a document: the raw resolved value, with `.null`
(Python `None`) for an absent or empty-mapping field. -/
def keyOf (d : Doc) (fld : String) : Value :=
  get_nested_value d fld

/-- Whether a group key is hashable: lists and dicts are not, and make
`grouped[key]` raise `TypeError`.  (The empty dict never reaches the
grouping dict: `_get_nested_value` collapses it to `None`.) -/
def hashableKey : Value → Bool
  | .list _ => false
  | .dict _ => false
  | _ => true

/-- Append a document to the group of its key: the first group whose key
compares `==` gains the document, otherwise a new group is appended (the
insertion-order behaviour of `defaultdict`). -/
def gAppend : List (Value × List Doc) → Value → Doc → List (Value × List Doc)
  | [], k, d => [(k, [d])]
  | (k0, g) :: rest, k, d =>
    if pyEq k k0 then (k0, g ++ [d]) :: rest
    else (k0, g) :: gAppend rest k d

/-- The loop of `group_by`. -/
def groupByAux (fld : String) (acc : List (Value × List Doc)) :
    List Doc → Except PyErr (List (Value × List Doc))
  | [] => .ok acc
  | d :: ds =>
    let k := keyOf d fld
    if hashableKey k then groupByAux fld (gAppend acc k d) ds
    else .error .typeError

/-- `JSONCollection.group_by(field)`. -/
def group_by (c : Collection) (fld : String) :
    Except PyErr (List (Value × List Doc)) :=
  groupByAux fld [] c.docs

/-- `isinstance(v, (int, float))` — true for Python booleans as well,
since `bool` is a subclass of `int`. -/
def isNumber : Value → Bool
  | .num _ => true
  | .bool _ => true
  | _ => false

/-- The numeric view of a collected value (booleans count as 1/0); total
helper, only applied to values passing `isNumber`. -/
def vnum (v : Value) : ℚ :=
  (toNum v).getD 0

/-- The contribution of one document to `aggregate`'s value list: its
resolved value at the field if that value passes the `isinstance` filter
(`None` for an absent field is not an `int`/`float` instance). -/
def numContrib (fld : String) (d : Doc) : Option Value :=
  let v := get_nested_value d fld
  if isNumber v then some v else none

/-- The list comprehension of `aggregate`: resolved values across all
documents that are `int`/`float` instances, in document order. -/
def numValsAt (c : Collection) (fld : String) : List Value :=
  c.docs.filterMap (numContrib fld)

/-- Python `sum` over the collected values. -/
def pySum (vals : List Value) : ℚ :=
  vals.foldl (fun a v => a + vnum v) 0

/-- Python `min` over a non-empty value list: the first element attaining
the least numeric value (all collected values are numeric, so comparisons
never raise). -/
def pyMin (x : Value) (xs : List Value) : Value :=
  xs.foldl (fun best v => if vnum v < vnum best then v else best) x

/-- Python `max` over a non-empty value list, keeping the earliest
greatest element. -/
def pyMax (x : Value) (xs : List Value) : Value :=
  xs.foldl (fun best v => if vnum best < vnum v then v else best) x

/-- `JSONCollection.aggregate(field, operation)`: `none` is Python `None`. -/
def aggregate (c : Collection) (fld op : String) : Option Value :=
  let values := numValsAt c fld
  if op == "sum" then some (.num (pySum values))
  else if op == "avg" then
    some (.num (match values with
      | [] => 0
      | _ => pySum values / values.length))
  else if op == "min" then
    match values with
    | [] => none
    | x :: xs => some (pyMin x xs)
  else if op == "max" then
    match values with
    | [] => none
    | x :: xs => some (pyMax x xs)
  else none

/-- Whether a value is a Python dict (`isinstance(v, dict)`). -/
def isDictV : Value → Bool
  | .dict _ => true
  | _ => false

/-- Whether a value is a Python string. -/
def isStrV : Value → Bool
  | .str _ => true
  | _ => false

/-- Whether a value is a Python list. -/
def isListV : Value → Bool
  | .list _ => true
  | _ => false

/-- Values on which Python's ordered comparison raises `TypeError`
outright: not both numeric (numbers/booleans), not both strings, not both
lists. -/
def orderIncomparable (a b : Value) : Bool :=
  !((toNum a).isSome && (toNum b).isSome) && !(isStrV a && isStrV b) &&
    !(isListV a && isListV b)

/-- The spec's index-correctness invariant (§3 of the spec): for every
document and registered field, the document's `_id` sits in exactly the
bucket of its stringified resolved value, and in no bucket when the value
resolves to null. -/
def index_correct (docs : List Doc) (fld : String) (idx : Index) : Prop :=
  ∀ d ∈ docs, ∀ i, docId d = some i → ∀ s,
    memPy i (bucketOf idx s) = true ↔
      (get_nested_value d fld ≠ .null ∧ stringify (get_nested_value d fld) = s)

/-- All registered indexes are correct. -/
def indexes_correct (docs : List Doc) (idxs : Indexes) : Prop :=
  ∀ f idx, idxs.lookup f = some idx → index_correct docs f idx

/-- The completeness half of index correctness: every document's `_id` is
present under its current stringified value (buckets may hold extra stale
entries). -/
def completeFor (docs : List Doc) (fld : String) (idx : Index) : Prop :=
  ∀ d ∈ docs, get_nested_value d fld ≠ .null → ∀ i, docId d = some i →
    memPy i (bucketOf idx (stringify (get_nested_value d fld))) = true

/-- All registered indexes are complete. -/
def indexes_complete (docs : List Doc) (idxs : Indexes) : Prop :=
  ∀ f idx, idxs.lookup f = some idx → completeFor docs f idx

/-- Every document carries a string `_id`. -/
def strIds (docs : List Doc) : Prop :=
  ∀ d ∈ docs, ∃ s, docId d = some (Value.str s)

/-- Documents with the same string `_id` are the same document. -/
def uniqueIds (docs : List Doc) : Prop :=
  ∀ d1 ∈ docs, ∀ d2 ∈ docs, ∀ s,
    docId d1 = some (Value.str s) → docId d2 = some (Value.str s) → d1 = d2

/-- A candidate id string absent from every bucket of every registered
index (what freshness of a generated uuid gives in any reachable state). -/
def freshFor (idxs : Indexes) (si : String) : Prop :=
  ∀ f idx, idxs.lookup f = some idx → ∀ s,
    memPy (Value.str si) (bucketOf idx s) = false

/-- A query clause that index consultation can serve: a plain (non-dict)
value, a registered index that is non-empty (Python's falsy `{}` check),
and a bucket present for the stringified value. -/
def goodClause (idxs : Indexes) (p : String × Value) : Bool :=
  !isDictV p.2 &&
    (match idxs.lookup p.1 with
     | none => false
     | some idx => !idx.isEmpty && (idx.lookup (stringify p.2)).isSome)

/-- The bucket a clause reads (empty when absent). -/
def clauseBucket (idxs : Indexes) (p : String × Value) : List Value :=
  bucketOf ((idxs.lookup p.1).getD []) (stringify p.2)

/-- A sequence of `insert_one` calls, each with its generated uuid. -/
def insertMany (c : Collection) : List (Doc × String) → Except PyErr Collection
  | [] => .ok c
  | (d, g) :: rest => do
    let c' ← insert_one c d g
    insertMany c' rest

/-- The `_id` a call `insert_one(d)` ends up storing, when `g` is the
generated uuid: the supplied value if the document carries one, the fresh
string otherwise. -/
def assignedId (p : Doc × String) : Value :=
  match p.1.lookup "_id" with
  | some v => v
  | none => .str p.2

/-- The document as stored by `insert_one(d)` when `g` is the generated
uuid: unchanged if it carries an `_id`, extended with the fresh one
otherwise. -/
def insDoc (p : Doc × String) : Doc :=
  if (p.1.lookup "_id").isSome then p.1 else p.1 ++ [("_id", .str p.2)]

/-- The string `_id`s of a document list, in order. -/
def idStrs (docs : List Doc) : List String :=
  docs.filterMap (fun d =>
    match docId d with
    | some (.str s) => some s
    | _ => none)

/-- Canonical representative of a hashable value's Python equality class:
booleans collapse onto the numbers 1/0 (as Python's `hash`/`==` do);
other hashable values stand for themselves. -/
def canonKey : Value → Value
  | .bool b => .num (if b then 1 else 0)
  | v => v

/-- Whether a value is Python `None`. -/
def isNull : Value → Bool
  | .null => true
  | _ => false

theorem lookup_cons_eq {β : Type} (k : String) (v : β) (rest : List (String × β)) :
    ((k, v) :: rest).lookup k = some v := by
  simp [List.lookup_cons]

theorem lookup_cons_ne {β : Type} {k k0 : String} (v0 : β) (rest : List (String × β))
    (h : k ≠ k0) : ((k0, v0) :: rest).lookup k = rest.lookup k := by
  simp [List.lookup_cons, beq_false_of_ne h]

theorem pyEq_str_iff {s : String} {v : Value} :
    pyEq (.str s) v = true ↔ v = .str s := by
  cases v <;> simp [pyEq]
  exact eq_comm

theorem pyEq_str_self (s : String) : pyEq (.str s) (.str s) = true := by
  simp [pyEq]

theorem memPy_str_iff {s : String} {l : List Value} :
    memPy (.str s) l = true ↔ Value.str s ∈ l := by
  simp only [memPy, List.any_eq_true]
  constructor
  · rintro ⟨y, hy, he⟩
    rcases pyEq_str_iff.mp he with rfl
    exact hy
  · intro h
    exact ⟨_, h, pyEq_str_self s⟩

theorem memPy_append {x : Value} {a b : List Value} :
    memPy x (a ++ b) = (memPy x a || memPy x b) := by
  simp [memPy, List.any_append]

theorem lookup_append {β : Type} (l1 l2 : List (String × β)) (k : String) :
    (l1 ++ l2).lookup k = ((l1.lookup k).or (l2.lookup k)) := by
  induction l1 with
  | nil => simp
  | cons p rest ih =>
    obtain ⟨k0, v0⟩ := p
    by_cases h : k = k0
    · subst h
      simp [lookup_cons_eq]
    · simp [lookup_cons_ne _ _ h, ih]

theorem hasKey_lookup {β : Type} (d : List (String × β)) (k : String)
    (h : (d.any fun p => p.1 == k) = false) : d.lookup k = none := by
  induction d with
  | nil => rfl
  | cons p rest ih =>
    obtain ⟨k0, v0⟩ := p
    simp only [List.any_cons, Bool.or_eq_false_iff, beq_eq_false_iff_ne] at h
    rw [lookup_cons_ne _ _ (Ne.symm h.1)]
    exact ih h.2

theorem lookup_map_set_eq {β : Type} (d : List (String × β)) (k : String) (v : β) :
    ((d.map (fun p => if p.1 == k then (k, v) else p)).lookup k) =
      if (d.any fun p => p.1 == k) = true then some v else none := by
  induction d with
  | nil => simp
  | cons p rest ih =>
    obtain ⟨k0, v0⟩ := p
    by_cases h : k0 = k
    · subst h
      simp only [List.map_cons, List.any_cons]
      rw [if_pos (by simp)]
      simp [lookup_cons_eq]
    · simp only [List.map_cons, List.any_cons, beq_false_of_ne h, Bool.false_or]
      rw [if_neg (by simp [beq_false_of_ne h])]
      rw [lookup_cons_ne _ _ (Ne.symm h)]
      exact ih

theorem lookup_map_set_ne {β : Type} (d : List (String × β)) (k k' : String) (v : β)
    (h : k' ≠ k) :
    ((d.map (fun p => if p.1 == k then (k, v) else p)).lookup k') = d.lookup k' := by
  induction d with
  | nil => simp
  | cons p rest ih =>
    obtain ⟨k0, v0⟩ := p
    by_cases h0 : k0 = k
    · subst h0
      simp only [List.map_cons]
      rw [if_pos (by simp)]
      rw [lookup_cons_ne _ _ h, lookup_cons_ne _ _ h]
      exact ih
    · simp only [List.map_cons]
      rw [if_neg (by simp [beq_false_of_ne h0])]
      by_cases hk : k' = k0
      · subst hk
        rw [lookup_cons_eq, lookup_cons_eq]
      · rw [lookup_cons_ne _ _ hk, lookup_cons_ne _ _ hk]
        exact ih

theorem lookup_aUpd_self {β : Type} (d : List (String × β)) (k : String) (v : β) :
    (aUpd d k v).lookup k = some v := by
  unfold aUpd
  split
  · next hany => rw [lookup_map_set_eq, if_pos hany]
  · next hany =>
    rw [lookup_append, hasKey_lookup _ _ (Bool.eq_false_iff.mpr hany)]
    simp [lookup_cons_eq, Option.or]

theorem lookup_aUpd_ne {β : Type} (d : List (String × β)) (k k' : String) (v : β)
    (h : k' ≠ k) : (aUpd d k v).lookup k' = d.lookup k' := by
  unfold aUpd
  split
  · exact lookup_map_set_ne d k k' v h
  · rw [lookup_append, lookup_cons_ne _ _ h]
    simp only [List.lookup_nil]
    cases d.lookup k' <;> simp [Option.or]

theorem lookup_mapVals {β γ : Type} (g : β → γ) (l : List (String × β)) (k : String) :
    ((l.map (fun p => (p.1, g p.2))).lookup k) = (l.lookup k).map g := by
  induction l with
  | nil => simp
  | cons p rest ih =>
    obtain ⟨k0, v0⟩ := p
    by_cases h : k = k0
    · subst h
      simp [lookup_cons_eq]
    · simp only [List.map_cons]
      rw [lookup_cons_ne _ _ h, lookup_cons_ne _ _ h]
      exact ih

theorem ratIf_inj (x y : Bool) :
    ((if x then (1 : ℚ) else 0) = (if y then (1 : ℚ) else 0)) ↔ x = y := by
  cases x <;> cases y <;> norm_num

theorem pyEq_h_iff {a b : Value} (ha : hashableKey a = true)
    (hb : hashableKey b = true) : pyEq a b = true ↔ canonKey a = canonKey b := by
  cases a <;> cases b <;>
    simp_all [pyEq, hashableKey, canonKey, ratIf_inj]

theorem pyEq_refl_h {v : Value} (h : hashableKey v = true) : pyEq v v = true :=
  (pyEq_h_iff h h).mpr rfl

theorem pyEq_symm_h {a b : Value} (ha : hashableKey a = true)
    (hb : hashableKey b = true) : pyEq a b = pyEq b a := by
  rw [Bool.eq_iff_iff, pyEq_h_iff ha hb, pyEq_h_iff hb ha]
  exact eq_comm

theorem pyEq_trans_h {a b c : Value} (ha : hashableKey a = true)
    (hb : hashableKey b = true) (hc : hashableKey c = true)
    (h1 : pyEq a b = true) (h2 : pyEq b c = true) : pyEq a c = true :=
  (pyEq_h_iff ha hc).mpr
    (((pyEq_h_iff ha hb).mp h1).trans ((pyEq_h_iff hb hc).mp h2))

theorem dedup_mem_str (s : String) (l : List Value) :
    ∀ acc, (Value.str s ∈
        l.foldl (fun acc x => if memPy x acc then acc else acc ++ [x]) acc) ↔
      (Value.str s ∈ acc ∨ Value.str s ∈ l) := by
  induction l with
  | nil => intro acc; simp
  | cons x xs ih =>
    intro acc
    simp only [List.foldl_cons]
    rw [ih]
    by_cases hx : memPy x acc = true
    · rw [if_pos hx]
      constructor
      · rintro (h | h)
        · exact Or.inl h
        · exact Or.inr (List.mem_cons_of_mem _ h)
      · rintro (h | h)
        · exact Or.inl h
        · rcases List.mem_cons.mp h with rfl | h
          · exact Or.inl (memPy_str_iff.mp hx)
          · exact Or.inr h
    · rw [if_neg hx]
      constructor
      · rintro (h | h)
        · rcases List.mem_append.mp h with h' | h'
          · exact Or.inl h'
          · simp only [List.mem_singleton] at h'
            exact Or.inr (h' ▸ List.mem_cons_self _ _)
        · exact Or.inr (List.mem_cons_of_mem _ h)
      · rintro (h | h)
        · exact Or.inl (List.mem_append.mpr (Or.inl h))
        · rcases List.mem_cons.mp h with rfl | h
          · exact Or.inl (List.mem_append.mpr (Or.inr (by simp)))
          · exact Or.inr h

theorem memPy_dedup_str (s : String) (l : List Value) :
    memPy (.str s) (dedupPy l) = memPy (.str s) l := by
  rw [Bool.eq_iff_iff, memPy_str_iff, memPy_str_iff]
  unfold dedupPy
  rw [dedup_mem_str]
  simp

theorem memPy_inter_str (s : String) (a b : List Value) :
    memPy (.str s) (interPy a b) = (memPy (.str s) a && memPy (.str s) b) := by
  rw [Bool.eq_iff_iff, memPy_str_iff]
  unfold interPy
  rw [List.mem_filter]
  simp only [Bool.and_eq_true, memPy_str_iff]

theorem bindOk {α β : Type} {x : Except PyErr α} {f : α → Except PyErr β} {y : β}
    (h : (x >>= f) = .ok y) : ∃ a, x = .ok a ∧ f a = .ok y := by
  cases x with
  | error e => simp [Bind.bind, Except.bind] at h
  | ok a => exact ⟨a, rfl, by simpa [Bind.bind, Except.bind] using h⟩

theorem okBind {α β : Type} {x : Except PyErr α} {f : α → Except PyErr β} {a : α}
    (hx : x = .ok a) : (x >>= f) = f a := by
  subst hx
  simp [Bind.bind, Except.bind]

theorem isNull_iff {v : Value} : isNull v = true ↔ v = .null := by
  cases v <;> simp [isNull]

theorem updOneField_eq (d : Doc) (fld : String) (idx : Index) :
    updOneField d fld idx =
      if isNull (get_nested_value d fld) then .ok idx
      else
        match docId d with
        | none => .error .keyError
        | some i =>
          .ok (match idx.lookup (stringify (get_nested_value d fld)) with
            | none => idx ++ [(stringify (get_nested_value d fld), [i])]
            | some b =>
              if memPy i b then idx
              else aUpd idx (stringify (get_nested_value d fld)) (b ++ [i])) := by
  unfold updOneField
  cases get_nested_value d fld <;> simp [isNull]

theorem lookup_isSome_ne_nil {β : Type} {l : List (String × β)} {k : String} {b : β}
    (h : l.lookup k = some b) : l.isEmpty = false := by
  cases l with
  | nil => simp at h
  | cons p rest => rfl

theorem updOneField_eq_null {d : Doc} {fld : String} (idx : Index)
    (h : get_nested_value d fld = .null) : updOneField d fld idx = .ok idx := by
  rw [updOneField_eq, if_pos (isNull_iff.mpr h)]

theorem updOneField_eq_noid {d : Doc} {fld : String} (idx : Index)
    (hnn : get_nested_value d fld ≠ .null) (hid : docId d = none) :
    updOneField d fld idx = .error .keyError := by
  rw [updOneField_eq, if_neg (by simp [isNull_iff, hnn]), hid]

theorem updOneField_eq_some {d : Doc} {fld : String} (idx : Index) {i : Value}
    (hnn : get_nested_value d fld ≠ .null) (hid : docId d = some i) :
    updOneField d fld idx =
      .ok (match idx.lookup (stringify (get_nested_value d fld)) with
        | none => idx ++ [(stringify (get_nested_value d fld), [i])]
        | some b =>
          if memPy i b then idx
          else aUpd idx (stringify (get_nested_value d fld)) (b ++ [i])) := by
  rw [updOneField_eq, if_neg (by simp [isNull_iff, hnn]), hid]

theorem bucketOf_append_new {idx : Index} {s : String} {i : Value}
    (hnone : idx.lookup s = none) (s' : String) :
    bucketOf (idx ++ [(s, [i])]) s' = if s' = s then [i] else bucketOf idx s' := by
  unfold bucketOf
  rw [lookup_append]
  by_cases h : s' = s
  · subst h
    rw [hnone, lookup_cons_eq]
    simp [Option.or]
  · rw [if_neg h, lookup_cons_ne _ _ h]
    simp only [List.lookup_nil]
    cases idx.lookup s' <;> simp [Option.or]

theorem bucketOf_aUpd_self (idx : Index) (s : String) (b : List Value) :
    bucketOf (aUpd idx s b) s = b := by
  unfold bucketOf
  rw [lookup_aUpd_self]
  rfl

theorem bucketOf_aUpd_ne (idx : Index) {s s' : String} (b : List Value)
    (h : s' ≠ s) : bucketOf (aUpd idx s b) s' = bucketOf idx s' := by
  unfold bucketOf
  rw [lookup_aUpd_ne _ _ _ _ h]

/-- Pointwise effect of `_update_indexes` on one index: each bucket is
unchanged, except that the bucket of the document's own stringified value
gains the document's `_id` when it was missing. -/
theorem updOneField_spec {d : Doc} {fld : String} {idx idx' : Index}
    (h : updOneField d fld idx = .ok idx') (s : String) :
    bucketOf idx' s = bucketOf idx s ∨
    ∃ i, docId d = some i ∧ get_nested_value d fld ≠ .null ∧
      s = stringify (get_nested_value d fld) ∧
      memPy i (bucketOf idx s) = false ∧
      bucketOf idx' s = bucketOf idx s ++ [i] := by
  by_cases hnn : get_nested_value d fld = .null
  · rw [updOneField_eq_null _ hnn] at h
    cases h
    exact Or.inl rfl
  · cases hid : docId d with
    | none => rw [updOneField_eq_noid _ hnn hid] at h; cases h
    | some i =>
      rw [updOneField_eq_some _ hnn hid] at h
      cases hb : idx.lookup (stringify (get_nested_value d fld)) with
      | none =>
        rw [hb] at h
        cases h
        by_cases hs : s = stringify (get_nested_value d fld)
        · subst hs
          refine Or.inr ⟨i, rfl, hnn, rfl, ?_, ?_⟩
          · unfold bucketOf; rw [hb]; rfl
          · rw [bucketOf_append_new hb, if_pos rfl]
            unfold bucketOf; rw [hb]; rfl
        · left
          rw [bucketOf_append_new hb s, if_neg hs]
      | some b =>
        rw [hb] at h
        simp only [] at h
        by_cases hmem : memPy i b = true
        · rw [if_pos hmem] at h
          cases h
          exact Or.inl rfl
        · rw [if_neg hmem] at h
          cases h
          by_cases hs : s = stringify (get_nested_value d fld)
          · subst hs
            refine Or.inr ⟨i, rfl, hnn, rfl, ?_, ?_⟩
            · unfold bucketOf; rw [hb]
              simpa using hmem
            · rw [bucketOf_aUpd_self]
              unfold bucketOf; rw [hb]
              rfl
          · left
            rw [bucketOf_aUpd_ne _ _ hs]

/-- After `_update_indexes`, the document's `_id` is present in the bucket
of its stringified value, and that bucket exists. -/
theorem updOneField_mem {d : Doc} {fld : String} {idx idx' : Index} {i : Value}
    (h : updOneField d fld idx = .ok idx')
    (hnn : get_nested_value d fld ≠ .null)
    (hid : docId d = some i) (hre : pyEq i i = true) :
    ∃ b, idx'.lookup (stringify (get_nested_value d fld)) = some b ∧
      memPy i b = true := by
  rw [updOneField_eq_some _ hnn hid] at h
  cases hb : idx.lookup (stringify (get_nested_value d fld)) with
  | none =>
    rw [hb] at h
    cases h
    refine ⟨[i], ?_, by simp [memPy, hre]⟩
    rw [lookup_append, hb, lookup_cons_eq]
    rfl
  | some b =>
    rw [hb] at h
    simp only [] at h
    by_cases hmem : memPy i b = true
    · rw [if_pos hmem] at h
      cases h
      exact ⟨b, hb, hmem⟩
    · rw [if_neg hmem] at h
      cases h
      refine ⟨b ++ [i], ?_, ?_⟩
      · rw [lookup_aUpd_self]
      · rw [memPy_append]
        simp [memPy, hre]

theorem updOneField_mono {d : Doc} {fld : String} {idx idx' : Index} {j : Value}
    {s : String} (h : updOneField d fld idx = .ok idx')
    (hm : memPy j (bucketOf idx s) = true) : memPy j (bucketOf idx' s) = true := by
  rcases updOneField_spec h s with he | ⟨i, _, _, _, _, he⟩ <;> rw [he]
  · exact hm
  · rw [memPy_append, hm]
    rfl

theorem updOneField_ok {d : Doc} {fld : String} (idx : Index) {i : Value}
    (hid : docId d = some i) : ∃ idx', updOneField d fld idx = .ok idx' := by
  by_cases hnn : get_nested_value d fld = .null
  · exact ⟨idx, updOneField_eq_null _ hnn⟩
  · exact ⟨_, updOneField_eq_some _ hnn hid⟩

theorem updOneField_skip {d : Doc} {fld : String} {idx : Index} {i : Value}
    (hnn : get_nested_value d fld ≠ .null) (hid : docId d = some i)
    (hmem : memPy i (bucketOf idx (stringify (get_nested_value d fld))) = true) :
    updOneField d fld idx = .ok idx := by
  rw [updOneField_eq_some idx hnn hid]
  cases hb : idx.lookup (stringify (get_nested_value d fld)) with
  | none =>
    exfalso
    unfold bucketOf at hmem
    rw [hb] at hmem
    simp [memPy] at hmem
  | some b =>
    unfold bucketOf at hmem
    rw [hb] at hmem
    simp only [Option.getD_some] at hmem
    simp [hmem]

theorem update_indexes_cons {fld : String} {idx : Index} {idxs : Indexes}
    {d : Doc} {idxs' : Indexes}
    (h : update_indexes ((fld, idx) :: idxs) d = .ok idxs') :
    ∃ i1 r1, updOneField d fld idx = .ok i1 ∧ update_indexes idxs d = .ok r1 ∧
      idxs' = (fld, i1) :: r1 := by
  simp only [update_indexes] at h
  cases hu : updOneField d fld idx with
  | error e =>
    rw [hu] at h
    exact absurd h (by simp [Bind.bind, Except.bind])
  | ok i1 =>
    rw [hu] at h
    cases hr : update_indexes idxs d with
    | error e =>
      rw [hr] at h
      exact absurd h (by simp [Bind.bind, Except.bind])
    | ok r1 =>
      rw [hr] at h
      simp only [Bind.bind, Except.bind, Except.ok.injEq] at h
      exact ⟨i1, r1, rfl, rfl, h.symm⟩

theorem update_indexes_ok {d : Doc} {i : Value} (idxs : Indexes)
    (hid : docId d = some i) : ∃ idxs', update_indexes idxs d = .ok idxs' := by
  induction idxs with
  | nil => exact ⟨[], rfl⟩
  | cons p rest ih =>
    obtain ⟨fld, idx⟩ := p
    obtain ⟨i1, h1⟩ := @updOneField_ok d fld idx i hid
    obtain ⟨r1, hr⟩ := ih
    refine ⟨(fld, i1) :: r1, ?_⟩
    simp only [update_indexes]
    rw [okBind h1, okBind hr]

theorem update_indexes_lookup_some {idxs : Indexes} {d : Doc} {idxs' : Indexes}
    {f : String} {idx : Index}
    (h : update_indexes idxs d = .ok idxs') (hf : idxs.lookup f = some idx) :
    ∃ idx', updOneField d f idx = .ok idx' ∧ idxs'.lookup f = some idx' := by
  induction idxs generalizing idxs' with
  | nil => simp at hf
  | cons p rest ih =>
    obtain ⟨f0, idx0⟩ := p
    obtain ⟨i1, r1, h1, hr, rfl⟩ := update_indexes_cons h
    by_cases he : f = f0
    · subst he
      rw [lookup_cons_eq] at hf
      cases hf
      exact ⟨i1, h1, by rw [lookup_cons_eq]⟩
    · rw [lookup_cons_ne _ _ he] at hf
      obtain ⟨idx', hu, hl⟩ := ih hr hf
      exact ⟨idx', hu, by rw [lookup_cons_ne _ _ he]; exact hl⟩

theorem update_indexes_lookup_none {idxs : Indexes} {d : Doc} {idxs' : Indexes}
    {f : String}
    (h : update_indexes idxs d = .ok idxs') (hf : idxs.lookup f = none) :
    idxs'.lookup f = none := by
  induction idxs generalizing idxs' with
  | nil => cases h; exact hf
  | cons p rest ih =>
    obtain ⟨f0, idx0⟩ := p
    obtain ⟨i1, r1, h1, hr, rfl⟩ := update_indexes_cons h
    by_cases he : f = f0
    · subst he
      rw [lookup_cons_eq] at hf
      cases hf
    · rw [lookup_cons_ne _ _ he] at hf
      rw [lookup_cons_ne _ _ he]
      exact ih hr hf

theorem replay_cons {idxs : Indexes} {d : Doc} {ds : List Doc} {idxs' : Indexes}
    (h : replayIndexes idxs (d :: ds) = .ok idxs') :
    ∃ idxs1, update_indexes idxs d = .ok idxs1 ∧
      replayIndexes idxs1 ds = .ok idxs' := by
  simp only [replayIndexes] at h
  exact bindOk h

theorem replay_mono {ds : List Doc} :
    ∀ {idxs idxs' : Indexes}, replayIndexes idxs ds = .ok idxs' →
    ∀ {f : String} {idx : Index}, idxs.lookup f = some idx →
    ∃ idx', idxs'.lookup f = some idx' ∧
      ∀ j s, memPy j (bucketOf idx s) = true → memPy j (bucketOf idx' s) = true := by
  induction ds with
  | nil =>
    intro idxs idxs' h f idx hf
    cases h
    exact ⟨idx, hf, fun _ _ hm => hm⟩
  | cons d ds ih =>
    intro idxs idxs' h f idx hf
    obtain ⟨idxs1, h1, hrest⟩ := replay_cons h
    obtain ⟨idx1, hu, hl1⟩ := update_indexes_lookup_some h1 hf
    obtain ⟨idx', hl', hmono⟩ := ih hrest hl1
    exact ⟨idx', hl', fun j s hm => hmono j s (updOneField_mono hu hm)⟩

theorem replay_complete {ds : List Doc} :
    ∀ {idxs idxs' : Indexes}, replayIndexes idxs ds = .ok idxs' →
    ∀ {f : String} {idx : Index}, idxs.lookup f = some idx →
    ∀ d ∈ ds, get_nested_value d f ≠ .null → ∀ i, docId d = some i →
      pyEq i i = true →
    ∃ idx', idxs'.lookup f = some idx' ∧
      memPy i (bucketOf idx' (stringify (get_nested_value d f))) = true := by
  induction ds with
  | nil =>
    intro idxs idxs' h f idx hf d hd
    simp at hd
  | cons e ds ih =>
    intro idxs idxs' h f idx hf d hd hnn i hid hre
    obtain ⟨idxs1, h1, hrest⟩ := replay_cons h
    obtain ⟨idx1, hu, hl1⟩ := update_indexes_lookup_some h1 hf
    rcases List.mem_cons.mp hd with rfl | hd
    · obtain ⟨b, hb, hmem⟩ := updOneField_mem hu hnn hid hre
      obtain ⟨idx', hl', hmono⟩ := replay_mono hrest hl1
      refine ⟨idx', hl', hmono i _ ?_⟩
      unfold bucketOf
      rw [hb]
      exact hmem
    · exact ih hrest hl1 d hd hnn i hid hre

theorem replay_sound {ds : List Doc} {f : String} {d0 : Doc} {si : String} :
    ∀ {idxs idxs' : Indexes}, replayIndexes idxs ds = .ok idxs' →
    ∀ {idx : Index}, idxs.lookup f = some idx →
    (∀ e ∈ ds, docId e = some (.str si) →
      get_nested_value e f = get_nested_value d0 f) →
    (∀ s, memPy (.str si) (bucketOf idx s) = true →
      get_nested_value d0 f ≠ .null ∧ s = stringify (get_nested_value d0 f)) →
    ∃ idx', idxs'.lookup f = some idx' ∧
      ∀ s, memPy (.str si) (bucketOf idx' s) = true →
        get_nested_value d0 f ≠ .null ∧ s = stringify (get_nested_value d0 f) := by
  induction ds with
  | nil =>
    intro idxs idxs' h idx hf _ hsound
    cases h
    exact ⟨idx, hf, hsound⟩
  | cons e ds ih =>
    intro idxs idxs' h idx hf hsame hsound
    obtain ⟨idxs1, h1, hrest⟩ := replay_cons h
    obtain ⟨idx1, hu, hl1⟩ := update_indexes_lookup_some h1 hf
    refine ih hrest hl1 (fun e' he' => hsame e' (List.mem_cons_of_mem _ he')) ?_
    intro s hm
    rcases updOneField_spec hu s with he | ⟨i, hide, hnn, hs, _, he⟩
    · rw [he] at hm
      exact hsound s hm
    · rw [he, memPy_append] at hm
      rcases Bool.or_eq_true_iff.mp hm with hm' | hm'
      · exact hsound s hm'
      · have : i = .str si := by
          simp only [memPy, List.any_cons, List.any_nil, Bool.or_false] at hm'
          exact (pyEq_str_iff.mp hm').symm ▸ rfl
        subst this
        have hgnv := hsame e (List.mem_cons_self _ _) hide
        rw [hgnv] at hnn hs
        exact ⟨hnn, hs⟩

theorem replay_correct_of_fresh {ds : List Doc} {f : String}
    {idxs idxs' : Indexes} {idx : Index}
    (h : replayIndexes idxs ds = .ok idxs') (hf : idxs.lookup f = some idx)
    (hstr : strIds ds) (huniq : uniqueIds ds)
    (hfresh : ∀ d ∈ ds, ∀ si, docId d = some (.str si) →
      ∀ s, memPy (.str si) (bucketOf idx s) = false) :
    ∃ idx', idxs'.lookup f = some idx' ∧ index_correct ds f idx' := by
  rcases ds.eq_nil_or_concat with rfl | _
  · cases h
    exact ⟨idx, hf, fun d hd => by simp at hd⟩
  · obtain ⟨idx', hl', hmono⟩ := replay_mono h hf
    refine ⟨idx', hl', ?_⟩
    intro d hd i hid s
    obtain ⟨si, hsi⟩ := hstr d hd
    rw [hsi] at hid
    cases hid
    constructor
    · intro hm
      obtain ⟨idx'', hl'', hsound⟩ :=
        @replay_sound _ _ d si _ _ h _ hf
          (fun e he hide => by rw [huniq e he d hd si hide hsi])
          (fun s hm0 => absurd hm0 (by rw [hfresh d hd si hsi s]; simp))
      rw [hl'] at hl''
      cases hl''
      exact ⟨(hsound s hm).1, (hsound s hm).2.symm⟩
    · rintro ⟨hnn, rfl⟩
      obtain ⟨idx'', hl'', hmem⟩ :=
        replay_complete h hf d hd hnn _ hsi (pyEq_str_self si)
      rw [hl'] at hl''
      cases hl''
      exact hmem

theorem replay_unchanged_of_complete {ds : List Doc} {f : String} :
    ∀ {idxs idxs' : Indexes}, replayIndexes idxs ds = .ok idxs' →
    ∀ {idx : Index}, idxs.lookup f = some idx →
    (∀ d ∈ ds, get_nested_value d f ≠ .null → ∀ i, docId d = some i →
      memPy i (bucketOf idx (stringify (get_nested_value d f))) = true) →
    idxs'.lookup f = some idx := by
  induction ds with
  | nil =>
    intro idxs idxs' h idx hf _
    cases h
    exact hf
  | cons e ds ih =>
    intro idxs idxs' h idx hf hcomp
    obtain ⟨idxs1, h1, hrest⟩ := replay_cons h
    obtain ⟨idx1, hu, hl1⟩ := update_indexes_lookup_some h1 hf
    have : idx1 = idx := by
      by_cases hnn : get_nested_value e f = .null
      · rw [updOneField_eq_null _ hnn] at hu
        cases hu
        rfl
      · cases hide : docId e with
        | none => rw [updOneField_eq_noid _ hnn hide] at hu; cases hu
        | some i =>
          rw [updOneField_skip hnn hide
            (hcomp e (List.mem_cons_self _ _) hnn i hide)] at hu
          cases hu
          rfl
    subst this
    exact ih hrest hl1 fun d hd => hcomp d (List.mem_cons_of_mem _ hd)

theorem replay_lookup_none {ds : List Doc} :
    ∀ {idxs idxs' : Indexes}, replayIndexes idxs ds = .ok idxs' →
    ∀ {f : String}, idxs.lookup f = none → idxs'.lookup f = none := by
  induction ds with
  | nil =>
    intro idxs idxs' h f hf
    cases h
    exact hf
  | cons e ds ih =>
    intro idxs idxs' h f hf
    obtain ⟨idxs1, h1, hrest⟩ := replay_cons h
    exact ih hrest (update_indexes_lookup_none h1 hf)

theorem pyEq_str_right_iff {t : String} {v : Value} :
    pyEq v (.str t) = true ↔ v = .str t := by
  cases v <;> simp [pyEq]

theorem docId_append_id {d : Doc} {v : Value} (h : d.lookup "_id" = none) :
    docId (d ++ [("_id", v)]) = some v := by
  unfold docId
  rw [lookup_append, h, lookup_cons_eq]
  rfl

theorem insert_one_eq {c : Collection} {d : Doc} {si : String} {c' : Collection}
    (h : insert_one c d si = .ok c') (hno : d.lookup "_id" = none) :
    ∃ idxs', update_indexes c.indexes (d ++ [("_id", .str si)]) = .ok idxs' ∧
      c' = ⟨c.docs ++ [d ++ [("_id", .str si)]], idxs'⟩ := by
  unfold insert_one at h
  rw [hno] at h
  simp only [Option.isSome_none, Bool.false_eq_true, if_false] at h
  obtain ⟨idxs', h1, h2⟩ := bindOk h
  simp only [Except.ok.injEq] at h2
  exact ⟨idxs', h1, h2.symm⟩

theorem insert_one_eq_keep {c : Collection} {d : Doc} {si : String} {c' : Collection}
    (h : insert_one c d si = .ok c') {v : Value} (hv : d.lookup "_id" = some v) :
    ∃ idxs', update_indexes c.indexes d = .ok idxs' ∧
      c' = ⟨c.docs ++ [d], idxs'⟩ := by
  unfold insert_one at h
  rw [hv] at h
  simp only [Option.isSome_some, if_true] at h
  obtain ⟨idxs', h1, h2⟩ := bindOk h
  simp only [Except.ok.injEq] at h2
  exact ⟨idxs', h1, h2.symm⟩

theorem delete_eq {c : Collection} {q : List (String × Value)} {c' : Collection}
    (h : delete c q = .ok c') :
    ∃ nd idxs', filterNotMatch q c.docs = .ok nd ∧
      rebuild_indexes c.indexes nd = .ok idxs' ∧ c' = ⟨nd, idxs'⟩ := by
  unfold delete at h
  obtain ⟨nd, h1, h2⟩ := bindOk h
  obtain ⟨idxs', h3, h4⟩ := bindOk h2
  simp only [Except.ok.injEq] at h4
  exact ⟨nd, idxs', h1, h3, h4.symm⟩

theorem create_index_eq {c : Collection} {f : String} {c' : Collection}
    (h : create_index c f = .ok c') :
    ∃ idxs', replayIndexes (aUpd c.indexes f []) c.docs = .ok idxs' ∧
      c' = ⟨c.docs, idxs'⟩ := by
  unfold create_index at h
  obtain ⟨idxs', h1, h2⟩ := bindOk h
  simp only [Except.ok.injEq] at h2
  exact ⟨idxs', h1, h2.symm⟩

theorem update_eq {c : Collection} {q patch : List (String × Value)} {c' : Collection}
    (h : update c q patch = .ok c') :
    ∃ docs' idxs', updateAux q patch c.indexes c.docs = .ok (docs', idxs') ∧
      c' = ⟨docs', idxs'⟩ := by
  unfold update at h
  obtain ⟨⟨docs', idxs'⟩, h1, h2⟩ := bindOk h
  simp only [Except.ok.injEq] at h2
  exact ⟨docs', idxs', h1, h2.symm⟩

theorem updateAux_cons {q patch : List (String × Value)} {idxs : Indexes} {d : Doc}
    {ds : List Doc} {ds' : List Doc} {idxsF : Indexes}
    (h : updateAux q patch idxs (d :: ds) = .ok (ds', idxsF)) :
    (∃ idxs1 rest, matchDoc d q = .ok true ∧
        update_indexes idxs (applyPatch d patch) = .ok idxs1 ∧
        updateAux q patch idxs1 ds = .ok (rest, idxsF) ∧
        ds' = applyPatch d patch :: rest)
    ∨ (∃ rest, matchDoc d q = .ok false ∧
        updateAux q patch idxs ds = .ok (rest, idxsF) ∧ ds' = d :: rest) := by
  simp only [updateAux] at h
  obtain ⟨m, hm, h2⟩ := bindOk h
  cases m with
  | true =>
    simp only [if_true] at h2
    obtain ⟨idxs1, h3, h4⟩ := bindOk h2
    obtain ⟨⟨rest, idxsF'⟩, h5, h6⟩ := bindOk h4
    simp only [Except.ok.injEq, Prod.mk.injEq] at h6
    obtain ⟨h61, h62⟩ := h6
    subst h61
    subst h62
    exact Or.inl ⟨idxs1, rest, hm, h3, h5, rfl⟩
  | false =>
    simp only [Bool.false_eq_true, if_false] at h2
    obtain ⟨⟨rest, idxsF'⟩, h5, h6⟩ := bindOk h2
    simp only [Except.ok.injEq, Prod.mk.injEq] at h6
    obtain ⟨h61, h62⟩ := h6
    subst h61
    subst h62
    exact Or.inr ⟨rest, hm, h5, rfl⟩

theorem updateAux_nil {q patch : List (String × Value)} {idxs : Indexes}
    {ds' : List Doc} {idxsF : Indexes}
    (h : updateAux q patch idxs [] = .ok (ds', idxsF)) :
    ds' = [] ∧ idxsF = idxs := by
  simp only [updateAux, Except.ok.injEq, Prod.mk.injEq] at h
  exact ⟨h.1.symm, h.2.symm⟩

theorem updateAux_lookup_none {q patch : List (String × Value)} {ds : List Doc} :
    ∀ {idxs : Indexes} {ds' : List Doc} {idxsF : Indexes},
    updateAux q patch idxs ds = .ok (ds', idxsF) →
    ∀ {f : String}, idxs.lookup f = none → idxsF.lookup f = none := by
  induction ds with
  | nil =>
    intro idxs ds' idxsF h f hf
    obtain ⟨_, rfl⟩ := updateAux_nil h
    exact hf
  | cons d ds ih =>
    intro idxs ds' idxsF h f hf
    rcases updateAux_cons h with ⟨idxs1, rest, _, h3, h5, rfl⟩ | ⟨rest, _, h5, rfl⟩
    · exact ih h5 (update_indexes_lookup_none h3 hf)
    · exact ih h5 hf

theorem updateAux_complete {q patch : List (String × Value)} {ds : List Doc} :
    ∀ {idxs : Indexes} {ds' : List Doc} {idxsF : Indexes},
    updateAux q patch idxs ds = .ok (ds', idxsF) →
    strIds ds' →
    ∀ {f : String} {idx : Index}, idxs.lookup f = some idx →
    (∀ d ∈ ds, get_nested_value d f ≠ .null → ∀ i, docId d = some i →
      memPy i (bucketOf idx (stringify (get_nested_value d f))) = true) →
    ∃ idxF, idxsF.lookup f = some idxF ∧
      (∀ j s, memPy j (bucketOf idx s) = true → memPy j (bucketOf idxF s) = true) ∧
      (∀ d ∈ ds', get_nested_value d f ≠ .null → ∀ i, docId d = some i →
        memPy i (bucketOf idxF (stringify (get_nested_value d f))) = true) := by
  induction ds with
  | nil =>
    intro idxs ds' idxsF h hstr f idx hf hcomp
    obtain ⟨rfl, rfl⟩ := updateAux_nil h
    exact ⟨idx, hf, fun _ _ hm => hm, fun d hd => by simp at hd⟩
  | cons d ds ih =>
    intro idxs ds' idxsF h hstr f idx hf hcomp
    rcases updateAux_cons h with ⟨idxs1, rest, _, h3, h5, rfl⟩ | ⟨rest, _, h5, rfl⟩
    · obtain ⟨idx1, hu, hl1⟩ := update_indexes_lookup_some h3 hf
      obtain ⟨idxF, hlF, hmono, hcompF⟩ := ih h5
        (fun e he => hstr e (List.mem_cons_of_mem _ he)) hl1
        (fun e he hnn i hid =>
          updOneField_mono hu (hcomp e (List.mem_cons_of_mem _ he) hnn i hid))
      refine ⟨idxF, hlF, fun j s hm => hmono j s (updOneField_mono hu hm), ?_⟩
      intro e he hnn i hid
      rcases List.mem_cons.mp he with rfl | he
      · obtain ⟨si, hsi⟩ := hstr _ (List.mem_cons_self _ _)
        rw [hsi] at hid
        cases hid
        obtain ⟨b, hb, hmem⟩ := updOneField_mem hu hnn hsi (pyEq_str_self si)
        refine hmono _ _ ?_
        unfold bucketOf
        rw [hb]
        exact hmem
      · exact hcompF e he hnn i hid
    · obtain ⟨idxF, hlF, hmono, hcompF⟩ := ih h5
        (fun e he => hstr e (List.mem_cons_of_mem _ he)) hf
        (fun e he hnn i hid => hcomp e (List.mem_cons_of_mem _ he) hnn i hid)
      refine ⟨idxF, hlF, hmono, ?_⟩
      intro e he hnn i hid
      rcases List.mem_cons.mp he with rfl | he
      · exact hmono _ _ (hcomp e (List.mem_cons_self _ _) hnn i hid)
      · exact hcompF e he hnn i hid

theorem filterNotMatch_mem {q : List (String × Value)} {ds nd : List Doc}
    (h : filterNotMatch q ds = .ok nd) : ∀ x ∈ nd, x ∈ ds := by
  induction ds generalizing nd with
  | nil =>
    cases h
    simp
  | cons d rest ih =>
    simp only [filterNotMatch] at h
    obtain ⟨m, hm, h2⟩ := bindOk h
    obtain ⟨r, hr, h3⟩ := bindOk h2
    simp only [Except.ok.injEq] at h3
    subst h3
    intro x hx
    cases m with
    | true => exact List.mem_cons_of_mem _ (ih hr x hx)
    | false =>
      simp only [Bool.false_eq_true, if_false] at hx
      rcases List.mem_cons.mp hx with rfl | hx
      · exact List.mem_cons_self _ _
      · exact List.mem_cons_of_mem _ (ih hr x hx)

theorem filterNotMatch_nomatch {q : List (String × Value)} {ds : List Doc}
    (h : ∀ d ∈ ds, matchDoc d q = .ok false) :
    filterNotMatch q ds = .ok ds := by
  induction ds with
  | nil => rfl
  | cons d rest ih =>
    simp only [filterNotMatch]
    rw [okBind (h d (List.mem_cons_self _ _))]
    rw [okBind (ih fun e he => h e (List.mem_cons_of_mem _ he))]
    simp

theorem lookup_clear (idxs : Indexes) (f : String) :
    ((idxs.map fun p => (p.1, ([] : Index))).lookup f) =
      (idxs.lookup f).map (fun _ => ([] : Index)) := by
  induction idxs with
  | nil => simp
  | cons p rest ih =>
    obtain ⟨k0, v0⟩ := p
    by_cases h : f = k0
    · subst h
      simp [lookup_cons_eq]
    · simp only [List.map_cons]
      rw [lookup_cons_ne _ _ h, lookup_cons_ne _ _ h]
      exact ih

theorem memPy_nil (x : Value) : memPy x ([] : List Value) = false := rfl

theorem bucketOf_nil (s : String) : bucketOf ([] : Index) s = [] := rfl

/-- C2 (corrected).  Index correctness as an invariant of the public
mutating operations: `insert_one` (of an `_id`-less document, given that
the generated uuid is fresh) preserves correctness of every registered
index, `delete` and `create_index` re-establish it (for documents with
distinct string ids), but — contrary to the claim — `update` only
preserves the completeness half: every document's `_id` is indexed under
its current value, while the `_id` may also linger in the old value's
bucket (see the counterexample). -/
theorem C2_index_invariant :
    (∀ (c : Collection) (d : Doc) (si : String) (c' : Collection),
      insert_one c d si = .ok c' → d.lookup "_id" = none →
      indexes_correct c.docs c.indexes →
      (∀ e ∈ c.docs, ∀ t, docId e = some (.str t) → t ≠ si) →
      freshFor c.indexes si →
      indexes_correct c'.docs c'.indexes) ∧
    (∀ (c : Collection) (q patch : List (String × Value)) (c' : Collection),
      update c q patch = .ok c' → strIds c'.docs →
      indexes_complete c.docs c.indexes →
      indexes_complete c'.docs c'.indexes) ∧
    (∀ (c : Collection) (q : List (String × Value)) (c' : Collection),
      delete c q = .ok c' → strIds c.docs → uniqueIds c.docs →
      indexes_correct c'.docs c'.indexes) ∧
    (∀ (c : Collection) (f : String) (c' : Collection),
      create_index c f = .ok c' → strIds c.docs → uniqueIds c.docs →
      indexes_correct c.docs c.indexes →
      indexes_correct c'.docs c'.indexes) := by
  refine ⟨?_, ?_, ?_, ?_⟩
  · -- insert_one
    intro c d si c' h hno hcorr hne hfresh
    obtain ⟨idxs', hui, rfl⟩ := insert_one_eq h hno
    intro f idx' hl'
    cases hf : c.indexes.lookup f with
    | none => rw [update_indexes_lookup_none hui hf] at hl'; cases hl'
    | some idx =>
      obtain ⟨idx1, hu, hl1⟩ := update_indexes_lookup_some hui hf
      obtain rfl := Option.some.inj (hl1.symm.trans hl')
      have hidd : docId (d ++ [("_id", Value.str si)]) = some (Value.str si) :=
        docId_append_id hno
      intro e he i hid s
      rcases List.mem_append.mp he with he | he'
      · have hiff := hcorr f idx hf e he i hid s
        rcases updOneField_spec hu s with hb | ⟨i0, hid0, _, _, _, hb⟩
        · rw [hb]; exact hiff
        · obtain rfl : i0 = Value.str si := (Option.some.inj (hidd.symm.trans hid0)).symm
          have hpe : pyEq i (Value.str si) = false := by
            cases hq : pyEq i (Value.str si)
            · rfl
            · obtain rfl := pyEq_str_right_iff.mp hq
              exact absurd rfl (hne e he si hid)
          have hsg : memPy i [Value.str si] = false := by simp [memPy, hpe]
          rw [hb, memPy_append, hsg, Bool.or_false]
          exact hiff
      · simp only [List.mem_singleton] at he'
        subst he'
        rw [hidd] at hid
        obtain rfl := Option.some.inj hid.symm
        constructor
        · intro hm
          rcases updOneField_spec hu s with hb | ⟨i0, hid0, hnn0, hs0, _, hb⟩
          · rw [hb] at hm
            exact absurd hm (by rw [hfresh f idx hf s]; simp)
          · obtain rfl : i0 = Value.str si := (Option.some.inj (hidd.symm.trans hid0)).symm
            rw [hb, memPy_append] at hm
            rcases Bool.or_eq_true_iff.mp hm with hm' | hm'
            · exact absurd hm' (by rw [hfresh f idx hf s]; simp)
            · exact ⟨hnn0, hs0.symm⟩
        · rintro ⟨hnn, rfl⟩
          obtain ⟨b, hbl, hmem⟩ := updOneField_mem hu hnn hidd (pyEq_str_self si)
          unfold bucketOf
          rw [hbl]
          exact hmem
  · -- update
    intro c q patch c' h hstr hcomp
    obtain ⟨docs', idxs', hua, rfl⟩ := update_eq h
    intro f idx' hl'
    cases hf : c.indexes.lookup f with
    | none => rw [updateAux_lookup_none hua hf] at hl'; cases hl'
    | some idx =>
      obtain ⟨idxF, hlF, _, hcompF⟩ := updateAux_complete hua hstr hf (hcomp f idx hf)
      obtain rfl := Option.some.inj (hlF.symm.trans hl')
      exact hcompF
  · -- delete
    intro c q c' h hstr huniq
    obtain ⟨nd, idxs', hfm, hrb, rfl⟩ := delete_eq h
    intro f idx' hl'
    unfold rebuild_indexes at hrb
    cases hf : c.indexes.lookup f with
    | none =>
      have h0 : ((c.indexes.map fun p => (p.1, ([] : Index))).lookup f) = none := by
        rw [lookup_clear, hf]
        rfl
      rw [replay_lookup_none hrb h0] at hl'
      cases hl'
    | some idx =>
      have hclear : ((c.indexes.map fun p => (p.1, ([] : Index))).lookup f) = some [] := by
        rw [lookup_clear, hf]
        rfl
      obtain ⟨idx'', hl'', hc⟩ := replay_correct_of_fresh hrb hclear
        (fun e he => hstr e (filterNotMatch_mem hfm e he))
        (fun d1 h1 d2 h2 s ha hb =>
          huniq d1 (filterNotMatch_mem hfm d1 h1) d2 (filterNotMatch_mem hfm d2 h2) s ha hb)
        (fun d _ si _ s => rfl)
      obtain rfl := Option.some.inj (hl''.symm.trans hl')
      exact hc
  · -- create_index
    intro c f0 c' h hstr huniq hcorr
    obtain ⟨idxs', hrp, rfl⟩ := create_index_eq h
    intro g idxg hlg
    by_cases hgf : g = f0
    · subst hgf
      have hstart : (aUpd c.indexes g []).lookup g = some [] := lookup_aUpd_self _ _ _
      obtain ⟨idx'', hl'', hc⟩ := replay_correct_of_fresh hrp hstart hstr huniq
        (fun d _ si _ s => rfl)
      obtain rfl := Option.some.inj (hl''.symm.trans hlg)
      exact hc
    · have hstart : (aUpd c.indexes f0 []).lookup g = c.indexes.lookup g :=
        lookup_aUpd_ne _ _ _ _ hgf
      cases hg : c.indexes.lookup g with
      | none =>
        rw [replay_lookup_none hrp (hstart.trans hg)] at hlg
        cases hlg
      | some idx =>
        have hunch := replay_unchanged_of_complete hrp (hstart.trans hg)
          (fun d hd hnn i hid => (hcorr g idx hg d hd i hid _).mpr ⟨hnn, rfl⟩)
        obtain rfl := Option.some.inj (hunch.symm.trans hlg)
        exact hcorr g idx hg

/-- C2 counterexample.  In the reachable state built by inserting
`{f: 1}`, indexing `f`, and updating `f` to `2`, the document's `_id`
still sits in the bucket of the old value `"1"`, so the claimed
correctness invariant fails after `update`. -/
theorem C2_counterexample :
    insert_one ⟨[], []⟩ [("f", Value.num 1)] "a" =
      Except.ok ⟨[[("f", Value.num 1), ("_id", Value.str "a")]], []⟩ ∧
    create_index ⟨[[("f", Value.num 1), ("_id", Value.str "a")]], []⟩ "f" =
      Except.ok ⟨[[("f", Value.num 1), ("_id", Value.str "a")]],
        [("f", [("1", [Value.str "a"])])]⟩ ∧
    update ⟨[[("f", Value.num 1), ("_id", Value.str "a")]],
        [("f", [("1", [Value.str "a"])])]⟩ [] [("f", Value.num 2)] =
      Except.ok ⟨[[("f", Value.num 2), ("_id", Value.str "a")]],
        [("f", [("1", [Value.str "a"]), ("2", [Value.str "a"])])]⟩ ∧
    ¬ indexes_correct [[("f", Value.num 2), ("_id", Value.str "a")]]
        [("f", [("1", [Value.str "a"]), ("2", [Value.str "a"])])] := by
  refine ⟨rfl, rfl, rfl, fun h => ?_⟩
  have hiff := h "f" [("1", [Value.str "a"]), ("2", [Value.str "a"])] rfl
    [("f", Value.num 2), ("_id", Value.str "a")] (List.mem_singleton.mpr rfl)
    (Value.str "a") rfl "1"
  have hmem : memPy (Value.str "a")
      (bucketOf [("1", [Value.str "a"]), ("2", [Value.str "a"])] "1") = true := rfl
  have := (hiff.mp hmem).2
  have hg : get_nested_value [("f", Value.num 2), ("_id", Value.str "a")] "f" =
      Value.num 2 := rfl
  rw [hg] at this
  have : ("2" : String) = "1" := this
  simp at this

/-- C2 witness: the `create_index` conjunct applied at the empty
collection, establishing correctness of the freshly registered index. -/
theorem C2_witness :
    create_index ⟨[], []⟩ "f" = Except.ok ⟨[], [("f", [])]⟩ ∧
    indexes_correct ([] : List Doc) ([("f", [])] : Indexes) :=
  ⟨rfl, C2_index_invariant.2.2.2 ⟨[], []⟩ "f" ⟨[], [("f", [])]⟩ rfl
    (fun d hd => absurd hd (List.not_mem_nil d))
    (fun d1 h1 => absurd h1 (List.not_mem_nil d1))
    (fun f idx h => by simp at h)⟩

/-- C6 (corrected).  `delete` with a query matching no document leaves the
document set unchanged, but replaces every index with its canonical
rebuild from that document set; the indexes are unchanged exactly when
they already equal that rebuild (stale entries are dropped — see the
counterexample). -/
theorem C6_delete_nomatch (c : Collection) (q : List (String × Value))
    (h : ∀ d ∈ c.docs, matchDoc d q = .ok false) :
    (∀ idxs', rebuild_indexes c.indexes c.docs = .ok idxs' →
      delete c q = .ok ⟨c.docs, idxs'⟩) ∧
    (∀ idxs', rebuild_indexes c.indexes c.docs = .ok idxs' → c.indexes = idxs' →
      delete c q = .ok c) := by
  have hfm := filterNotMatch_nomatch h
  constructor
  · intro idxs' hrb
    unfold delete
    rw [okBind hfm, okBind hrb]
  · intro idxs' hrb heq
    unfold delete
    rw [okBind hfm, okBind hrb, ← heq]

/-- C6 counterexample.  On the reachable state of `C2_counterexample`
(whose index holds a stale entry), deleting with a query matching zero
documents keeps the document set but changes the index: the stale bucket
`"1"` disappears. -/
theorem C6_counterexample :
    (∀ d ∈ [[("f", Value.num 2), ("_id", Value.str "a")]],
      matchDoc d [("f", Value.num 3)] = Except.ok false) ∧
    delete ⟨[[("f", Value.num 2), ("_id", Value.str "a")]],
        [("f", [("1", [Value.str "a"]), ("2", [Value.str "a"])])]⟩
        [("f", Value.num 3)] =
      Except.ok ⟨[[("f", Value.num 2), ("_id", Value.str "a")]],
        [("f", [("2", [Value.str "a"])])]⟩ ∧
    ([("f", [("1", [Value.str "a"]), ("2", [Value.str "a"])])] : Indexes) ≠
      [("f", [("2", [Value.str "a"])])] := by
  refine ⟨?_, rfl, by simp⟩
  intro d hd
  simp only [List.mem_singleton] at hd
  subst hd
  rfl

/-- C6 witness: on a state whose index already equals its canonical
rebuild, a delete matching nothing returns the state unchanged. -/
theorem C6_witness :
    (∀ d ∈ ([[("_id", Value.str "1"), ("f", Value.num 1)]] : List Doc),
      matchDoc d [("f", Value.num 5)] = Except.ok false) ∧
    delete ⟨[[("_id", Value.str "1"), ("f", Value.num 1)]],
        [("f", [("1", [Value.str "1"])])]⟩ [("f", Value.num 5)] =
      Except.ok ⟨[[("_id", Value.str "1"), ("f", Value.num 1)]],
        [("f", [("1", [Value.str "1"])])]⟩ := by
  have hm : ∀ d ∈ ([[("_id", Value.str "1"), ("f", Value.num 1)]] : List Doc),
      matchDoc d [("f", Value.num 5)] = Except.ok false := by
    intro d hd
    simp only [List.mem_singleton] at hd
    subst hd
    rfl
  exact ⟨hm, (C6_delete_nomatch ⟨[[("_id", Value.str "1"), ("f", Value.num 1)]],
    [("f", [("1", [Value.str "1"])])]⟩ [("f", Value.num 5)] hm).2
    [("f", [("1", [Value.str "1"])])] rfl rfl⟩

theorem insert_one_noidx (ds : List Doc) (d : Doc) (g : String) :
    insert_one ⟨ds, []⟩ d g = .ok ⟨ds ++ [insDoc (d, g)], []⟩ := by
  unfold insert_one insDoc
  rw [okBind (rfl : update_indexes [] (if (d.lookup "_id").isSome then d
    else d ++ [("_id", .str g)]) = .ok [])]

theorem insertMany_noidx (l : List (Doc × String)) :
    ∀ ds : List Doc,
    insertMany ⟨ds, []⟩ l = .ok ⟨ds ++ l.map insDoc, []⟩ := by
  induction l with
  | nil => intro ds; simp [insertMany]
  | cons p rest ih =>
    intro ds
    obtain ⟨d, g⟩ := p
    simp only [insertMany]
    rw [okBind (insert_one_noidx ds d g)]
    rw [ih (ds ++ [insDoc (d, g)])]
    simp

theorem docId_insDoc (p : Doc × String) : docId (insDoc p) = some (assignedId p) := by
  obtain ⟨d, g⟩ := p
  unfold insDoc assignedId docId
  cases h : d.lookup "_id" with
  | none =>
    simp only [h, Option.isSome_none, Bool.false_eq_true, if_false]
    rw [lookup_append, h, lookup_cons_eq]
    rfl
  | some v =>
    simp [h]

theorem applyPatch_docId {patch : List (String × Value)}
    (hp : ∀ p ∈ patch, p.1 ≠ "_id") (d : Doc) :
    docId (applyPatch d patch) = docId d := by
  unfold applyPatch
  induction patch generalizing d with
  | nil => rfl
  | cons p rest ih =>
    obtain ⟨k, v⟩ := p
    simp only [List.foldl_cons]
    rw [ih (fun p' hp' => hp p' (List.mem_cons_of_mem _ hp'))]
    unfold docId
    exact lookup_aUpd_ne _ _ _ _ (Ne.symm (hp (k, v) (List.mem_cons_self _ _)))

theorem updateAux_ids {q patch : List (String × Value)}
    (hp : ∀ p ∈ patch, p.1 ≠ "_id") {ds : List Doc} :
    ∀ {idxs : Indexes} {ds' : List Doc} {idxsF : Indexes},
    updateAux q patch idxs ds = .ok (ds', idxsF) →
    ds'.map docId = ds.map docId := by
  induction ds with
  | nil =>
    intro idxs ds' idxsF h
    obtain ⟨rfl, _⟩ := updateAux_nil h
    rfl
  | cons d ds ih =>
    intro idxs ds' idxsF h
    rcases updateAux_cons h with ⟨idxs1, rest, _, _, h5, rfl⟩ | ⟨rest, _, h5, rfl⟩
    · simp only [List.map_cons]
      rw [ih h5, applyPatch_docId hp]
    · simp only [List.map_cons]
      rw [ih h5]

/-- C3 (corrected).  `_id` uniqueness holds for insertion sequences whose
assigned ids (the supplied `_id` when present, the generated uuid
otherwise) are pairwise distinct — the code never checks a supplied `_id`
against the existing ones, so a duplicate supplied `_id` violates
uniqueness (see the counterexample).  `_id` immutability holds for
patches that do not contain the key `_id` — a patch with `_id`
overwrites it. -/
theorem C3_id_unique_immutable :
    (∀ (l : List (Doc × String)) (c' : Collection),
      insertMany ⟨[], []⟩ l = .ok c' →
      (l.map assignedId).Pairwise (· ≠ ·) →
      (c'.docs.map docId).Pairwise (· ≠ ·)) ∧
    (∀ (c : Collection) (q patch : List (String × Value)) (c' : Collection),
      update c q patch = .ok c' →
      (∀ p ∈ patch, p.1 ≠ "_id") →
      c'.docs.map docId = c.docs.map docId) := by
  constructor
  · intro l c' h hpw
    rw [insertMany_noidx l []] at h
    cases h
    simp only [List.nil_append, List.map_map]
    have : (l.map (docId ∘ insDoc)) = l.map (fun p => some (assignedId p)) := by
      apply List.map_congr_left
      intro p _
      exact docId_insDoc p
    rw [this]
    have : l.map (fun p => some (assignedId p)) = (l.map assignedId).map some := by
      rw [List.map_map]
      rfl
    rw [this, List.pairwise_map]
    exact hpw.imp (fun hne hc => hne (Option.some.inj hc))
  · intro c q patch c' h hp
    obtain ⟨docs', idxs', hua, rfl⟩ := update_eq h
    exact updateAux_ids hp hua

/-- C3 counterexample.  Inserting a document that supplies the `_id`
value `"x"` twice produces two documents with the same `_id`: uniqueness
fails for sequences of `insert_one` calls with supplied ids. -/
theorem C3_counterexample :
    insert_one ⟨[], []⟩ [("_id", Value.str "x")] "g1" =
      Except.ok ⟨[[("_id", Value.str "x")]], []⟩ ∧
    insert_one ⟨[[("_id", Value.str "x")]], []⟩ [("_id", Value.str "x")] "g2" =
      Except.ok ⟨[[("_id", Value.str "x")], [("_id", Value.str "x")]], []⟩ ∧
    ¬ (([[("_id", Value.str "x")], [("_id", Value.str "x")]] : List Doc).map
        docId).Pairwise (· ≠ ·) := by
  refine ⟨rfl, rfl, fun h => ?_⟩
  exact (List.pairwise_cons.mp h).1 _ (List.mem_singleton.mpr rfl) rfl

/-- C3 witness: both conjuncts applied at concrete inputs — two inserts
with distinct assigned ids, and an `_id`-free patch. -/
theorem C3_witness :
    (([([("_id", Value.str "a")], "g"), ([], "h")].map assignedId)).Pairwise (· ≠ ·) ∧
    insertMany ⟨[], []⟩ [([("_id", Value.str "a")], "g"), ([], "h")] =
      Except.ok ⟨[[("_id", Value.str "a")], [("_id", Value.str "h")]], []⟩ ∧
    (([[("_id", Value.str "a")], [("_id", Value.str "h")]] : List Doc).map
      docId).Pairwise (· ≠ ·) ∧
    (∀ p ∈ ([("age", Value.num 23)] : List (String × Value)), p.1 ≠ "_id") ∧
    update ⟨[[("_id", Value.str "a")]], []⟩ [] [("age", Value.num 23)] =
      Except.ok ⟨[[("_id", Value.str "a"), ("age", Value.num 23)]], []⟩ ∧
    ([[("_id", Value.str "a"), ("age", Value.num 23)]] : List Doc).map docId =
      ([[("_id", Value.str "a")]] : List Doc).map docId := by
  have hpw : (([([("_id", Value.str "a")], "g"), ([], "h")].map
      assignedId)).Pairwise (· ≠ ·) := by
    simp [assignedId]
  have hp : ∀ p ∈ ([("age", Value.num 23)] : List (String × Value)), p.1 ≠ "_id" := by
    intro p hp
    simp only [List.mem_singleton] at hp
    subst hp
    simp
  refine ⟨hpw, rfl, ?_, hp, rfl, ?_⟩
  · exact C3_id_unique_immutable.1 [([("_id", Value.str "a")], "g"), ([], "h")]
      ⟨[[("_id", Value.str "a")], [("_id", Value.str "h")]], []⟩ rfl hpw
  · exact C3_id_unique_immutable.2 ⟨[[("_id", Value.str "a")]], []⟩ [] [("age", Value.num 23)]
      ⟨[[("_id", Value.str "a"), ("age", Value.num 23)]], []⟩ rfl hp

theorem pySum_eq_sum (vals : List Value) : pySum vals = ((vals.map vnum).sum) := by
  unfold pySum
  suffices h : ∀ a : ℚ, vals.foldl (fun x v => x + vnum v) a = a + (vals.map vnum).sum by
    rw [h 0, zero_add]
  induction vals with
  | nil => intro a; simp
  | cons v rest ih =>
    intro a
    simp only [List.foldl_cons, List.map_cons, List.sum_cons]
    rw [ih (a + vnum v)]
    ring

theorem numValsAt_isNumber {c : Collection} {fld : String} :
    ∀ v ∈ numValsAt c fld, isNumber v = true := by
  intro v hv
  unfold numValsAt at hv
  obtain ⟨d, _, hd⟩ := List.mem_filterMap.mp hv
  unfold numContrib at hd
  by_cases hn : isNumber (get_nested_value d fld) = true
  · rw [if_pos hn] at hd
    cases hd
    exact hn
  · rw [if_neg hn] at hd
    cases hd

theorem pyMin_spec (x : Value) (xs : List Value) :
    pyMin x xs ∈ x :: xs ∧ ∀ w ∈ x :: xs, vnum (pyMin x xs) ≤ vnum w := by
  unfold pyMin
  induction xs generalizing x with
  | nil => exact ⟨List.mem_singleton.mpr rfl, by simp⟩
  | cons y ys ih =>
    simp only [List.foldl_cons]
    obtain ⟨hmem, hle⟩ := ih (if vnum y < vnum x then y else x)
    constructor
    · rcases List.mem_cons.mp hmem with he | he
      · rw [he]
        split
        · exact List.mem_cons_of_mem _ (List.mem_cons_self _ _)
        · exact List.mem_cons_self _ _
      · exact List.mem_cons_of_mem _ (List.mem_cons_of_mem _ he)
    · intro w hw
      rcases List.mem_cons.mp hw with rfl | hw
      · refine le_trans (hle _ (List.mem_cons_self _ _)) ?_
        split
        · next hlt => exact le_of_lt hlt
        · exact le_refl _
      · rcases List.mem_cons.mp hw with rfl | hw
        · refine le_trans (hle _ (List.mem_cons_self _ _)) ?_
          split
          · exact le_refl _
          · next hlt => exact le_of_not_lt hlt
        · exact hle _ (List.mem_cons_of_mem _ hw)

theorem pyMax_spec (x : Value) (xs : List Value) :
    pyMax x xs ∈ x :: xs ∧ ∀ w ∈ x :: xs, vnum w ≤ vnum (pyMax x xs) := by
  unfold pyMax
  induction xs generalizing x with
  | nil => exact ⟨List.mem_singleton.mpr rfl, by simp⟩
  | cons y ys ih =>
    simp only [List.foldl_cons]
    obtain ⟨hmem, hle⟩ := ih (if vnum x < vnum y then y else x)
    constructor
    · rcases List.mem_cons.mp hmem with he | he
      · rw [he]
        split
        · exact List.mem_cons_of_mem _ (List.mem_cons_self _ _)
        · exact List.mem_cons_self _ _
      · exact List.mem_cons_of_mem _ (List.mem_cons_of_mem _ he)
    · intro w hw
      rcases List.mem_cons.mp hw with rfl | hw
      · refine le_trans ?_ (hle _ (List.mem_cons_self _ _))
        split
        · next hlt => exact le_of_lt hlt
        · exact le_refl _
      · rcases List.mem_cons.mp hw with rfl | hw
        · refine le_trans ?_ (hle _ (List.mem_cons_self _ _))
          split
          · exact le_refl _
          · next hlt => exact le_of_not_lt hlt
        · exact hle _ (List.mem_cons_of_mem _ hw)

theorem aggregate_sum_eq (c : Collection) (fld : String) :
    aggregate c fld "sum" = some (.num (pySum (numValsAt c fld))) := rfl

theorem aggregate_op_eq (c : Collection) (fld op : String)
    (h1 : op ≠ "sum") (h2 : op ≠ "avg") (h3 : op ≠ "min") (h4 : op ≠ "max") :
    aggregate c fld op = none := by
  unfold aggregate
  rw [if_neg (by simp [h1]), if_neg (by simp [h2]), if_neg (by simp [h3]),
    if_neg (by simp [h4])]

/-- C7 (corrected).  `aggregate` collects the resolved values that Python
counts as numeric — which, contrary to the claim, includes booleans,
because `bool` is a subclass of `int` (strings, nulls and containers are
excluded).  Over that list, `sum` is the exact sum (booleans counting as
1/0), `avg` is the sum divided by the count, `min`/`max` return the
first least/greatest element itself (possibly a boolean); over an empty
list `sum` and `avg` give 0 while `min`/`max` give null, and any other
op gives null. -/
theorem C7_aggregate_identities (c : Collection) (fld : String) :
    (∀ v ∈ numValsAt c fld, isNumber v = true) ∧
    aggregate c fld "sum" = some (.num ((numValsAt c fld).map vnum).sum) ∧
    (numValsAt c fld = [] → aggregate c fld "avg" = some (.num 0)) ∧
    (numValsAt c fld ≠ [] →
      aggregate c fld "avg" = some (.num (((numValsAt c fld).map vnum).sum /
        (numValsAt c fld).length))) ∧
    (numValsAt c fld = [] →
      aggregate c fld "min" = none ∧ aggregate c fld "max" = none) ∧
    (numValsAt c fld ≠ [] → ∃ v ∈ numValsAt c fld,
      aggregate c fld "min" = some v ∧ ∀ w ∈ numValsAt c fld, vnum v ≤ vnum w) ∧
    (numValsAt c fld ≠ [] → ∃ v ∈ numValsAt c fld,
      aggregate c fld "max" = some v ∧ ∀ w ∈ numValsAt c fld, vnum w ≤ vnum v) ∧
    (∀ op, op ≠ "sum" → op ≠ "avg" → op ≠ "min" → op ≠ "max" →
      aggregate c fld op = none) := by
  refine ⟨numValsAt_isNumber, ?_, ?_, ?_, ?_, ?_, ?_,
    fun op => aggregate_op_eq c fld op⟩
  · rw [aggregate_sum_eq, pySum_eq_sum]
  · intro he
    unfold aggregate
    rw [if_neg (by simp), if_pos (by simp), he]
  · intro hne
    unfold aggregate
    rw [if_neg (by simp), if_pos (by simp)]
    cases hv : numValsAt c fld with
    | nil => exact absurd hv hne
    | cons x xs =>
      show some (Value.num (pySum (x :: xs) / ((x :: xs).length : ℚ))) = _
      rw [pySum_eq_sum]
  · intro he
    unfold aggregate
    constructor
    · rw [if_neg (by simp), if_neg (by simp), if_pos (by simp), he]
    · rw [if_neg (by simp), if_neg (by simp), if_neg (by simp), if_pos (by simp), he]
  · intro hne
    unfold aggregate
    rw [if_neg (by simp), if_neg (by simp), if_pos (by simp)]
    cases hv : numValsAt c fld with
    | nil => exact absurd hv hne
    | cons x xs =>
      obtain ⟨hmem, hle⟩ := pyMin_spec x xs
      exact ⟨pyMin x xs, hv ▸ hmem, rfl, hv ▸ hle⟩
  · intro hne
    unfold aggregate
    rw [if_neg (by simp), if_neg (by simp), if_neg (by simp), if_pos (by simp)]
    cases hv : numValsAt c fld with
    | nil => exact absurd hv hne
    | cons x xs =>
      obtain ⟨hmem, hle⟩ := pyMax_spec x xs
      exact ⟨pyMax x xs, hv ▸ hmem, rfl, hv ▸ hle⟩

/-- C7 counterexample.  A document whose only `f` value is the boolean
`True` is collected (Python's `isinstance(True, int)` is true) and summed
as 1: the claim's "booleans are excluded" fails, and `min` even returns
the boolean itself. -/
theorem C7_counterexample :
    get_nested_value [("_id", Value.str "1"), ("f", Value.bool true)] "f" =
      Value.bool true ∧
    aggregate ⟨[[("_id", Value.str "1"), ("f", Value.bool true)]], []⟩ "f" "sum" =
      some (Value.num 1) ∧
    some (Value.num 1) ≠ some (Value.num 0) ∧
    aggregate ⟨[[("_id", Value.str "1"), ("f", Value.bool true)]], []⟩ "f" "min" =
      some (Value.bool true) := by
  refine ⟨rfl, ?_, by simp, rfl⟩
  show some (Value.num (pySum [Value.bool true])) = some (Value.num 1)
  norm_num [pySum, vnum, toNum]

/-- C7 witness: the nonempty `avg` conjunct applied at a two-document
collection with scores 10 and 20. -/
theorem C7_witness :
    numValsAt ⟨[[("s", Value.num 10)], [("s", Value.num 20)]], []⟩ "s" ≠ [] ∧
    aggregate ⟨[[("s", Value.num 10)], [("s", Value.num 20)]], []⟩ "s" "avg" =
      some (.num (((numValsAt ⟨[[("s", Value.num 10)], [("s", Value.num 20)]], []⟩
        "s").map vnum).sum /
        (numValsAt ⟨[[("s", Value.num 10)], [("s", Value.num 20)]], []⟩ "s").length)) := by
  have hne : numValsAt ⟨[[("s", Value.num 10)], [("s", Value.num 20)]], []⟩ "s" ≠ [] := by
    intro hc
    have : ([Value.num 10, Value.num 20] : List Value) = [] := hc
    cases this
  exact ⟨hne, (C7_aggregate_identities
    ⟨[[("s", Value.num 10)], [("s", Value.num 20)]], []⟩ "s").2.2.2.1 hne⟩

theorem pyLt_incomp {a b : Value} (h : orderIncomparable a b = true) :
    pyLt a b = .error .typeError := by
  cases a <;> cases b <;> simp_all [orderIncomparable, pyLt, toNum, isStrV, isListV]

theorem pyLe_incomp {a b : Value} (h : orderIncomparable a b = true) :
    pyLe a b = .error .typeError := by
  cases a <;> cases b <;> simp_all [orderIncomparable, pyLe, toNum, isStrV, isListV]

theorem orderIncomp_symm (a b : Value) :
    orderIncomparable a b = orderIncomparable b a := by
  cases a <;> cases b <;> rfl

/-- C8 (corrected).  Applying `$gt/$lt/$gte/$lte` to a resolved value and
operand that are not order-comparable makes `_match` raise an uncontrolled
`TypeError` (Python's comparison exception): the document is never
silently matched, but no `TypeMismatch` condition is produced either —
the evaluator is partial and the error propagates out of `find`
unhandled. -/
theorem C8_incomparable_raises (d : Doc) (k op : String) (cond : Value)
    (ops rest : List (String × Value)) (val : Value)
    (hop : op = "$gt" ∨ op = "$lt" ∨ op = "$gte" ∨ op = "$lte")
    (hres : resolveM (.dict d) (splitDot k) = some val)
    (hinc : orderIncomparable val cond = true) :
    matchDoc d ((k, .dict ((op, cond) :: ops)) :: rest) = .error .typeError ∧
    find ⟨[d], []⟩ ((k, .dict ((op, cond) :: ops)) :: rest) = .error .typeError := by
  have herr : evalOps val ((op, cond) :: ops) = .error .typeError := by
    rcases hop with rfl | rfl | rfl | rfl
    · show (do
        let y ← pyLt cond val
        if y = true then evalOps val ops else Except.ok false) = .error .typeError
      rw [show pyLt cond val = .error .typeError from
        pyLt_incomp (by rw [orderIncomp_symm]; exact hinc)]
      rfl
    · show (do
        let y ← pyLt val cond
        if y = true then evalOps val ops else Except.ok false) = .error .typeError
      rw [show pyLt val cond = .error .typeError from pyLt_incomp hinc]
      rfl
    · show (do
        let y ← pyLe cond val
        if y = true then evalOps val ops else Except.ok false) = .error .typeError
      rw [show pyLe cond val = .error .typeError from
        pyLe_incomp (by rw [orderIncomp_symm]; exact hinc)]
      rfl
    · show (do
        let y ← pyLe val cond
        if y = true then evalOps val ops else Except.ok false) = .error .typeError
      rw [show pyLe val cond = .error .typeError from pyLe_incomp hinc]
      rfl
  have hmatch : matchDoc d ((k, .dict ((op, cond) :: ops)) :: rest) =
      .error .typeError := by
    unfold matchDoc
    rw [hres]
    show (do
      let r ← evalOps val ((op, cond) :: ops)
      if r then matchDoc d rest else .ok false) = .error .typeError
    rw [herr]
    rfl
  refine ⟨hmatch, ?_⟩
  show (do
    let data ←
      match query_using_indexes ([] : Indexes)
          ((k, .dict ((op, cond) :: ops)) :: rest) with
      | none => pure [d]
      | some ids => filterByIds ids [d]
    filterMatch ((k, .dict ((op, cond) :: ops)) :: rest) data) = .error .typeError
  rw [show query_using_indexes ([] : Indexes)
      ((k, .dict ((op, cond) :: ops)) :: rest) = none from rfl]
  show filterMatch ((k, .dict ((op, cond) :: ops)) :: rest) [d] = .error .typeError
  simp only [filterMatch]
  rw [hmatch]
  rfl

/-- C8 counterexample.  A document without `f`, queried with
`{f: {$gt: 5}}`, resolves `f` to `None`; `None > 5` raises `TypeError`,
which `_match` does not catch, so `find` itself fails: the evaluator is
not total and produces no `TypeMismatch` match-failure. -/
theorem C8_counterexample :
    matchDoc [("_id", Value.str "1")] [("f", Value.dict [("$gt", Value.num 5)])] =
      Except.error PyErr.typeError ∧
    find ⟨[[("_id", Value.str "1")]], []⟩ [("f", Value.dict [("$gt", Value.num 5)])] =
      Except.error PyErr.typeError := ⟨rfl, rfl⟩

/-- C8 witness: the theorem applied at a document whose field holds the
string `"abc"`, compared with `$lt 3` — string versus number raises. -/
theorem C8_witness :
    (("$lt" : String) = "$gt" ∨ ("$lt" : String) = "$lt" ∨
      ("$lt" : String) = "$gte" ∨ ("$lt" : String) = "$lte") ∧
    resolveM (.dict [("g", Value.str "abc")]) (splitDot "g") = some (Value.str "abc") ∧
    orderIncomparable (Value.str "abc") (Value.num 3) = true ∧
    matchDoc [("g", Value.str "abc")] [("g", Value.dict [("$lt", Value.num 3)])] =
      Except.error PyErr.typeError := by
  refine ⟨Or.inr (Or.inl rfl), rfl, rfl, ?_⟩
  exact (C8_incomparable_raises [("g", Value.str "abc")] "g" "$lt" (Value.num 3)
    [] [] (Value.str "abc") (Or.inr (Or.inl rfl)) rfl rfl).1

/-- C10 (confirmed).  A field whose resolved raw value is the empty
mapping is treated by `_get_nested_value` — and hence by indexing,
grouping, and aggregation — exactly like an absent field: the resolution
yields `None`, the index is left untouched, the value is excluded from
aggregation, and the group key is `None`.  The match predicate's own
resolution, by contrast, sees `{}` as a real value: a plain-equality
query `{f: None}` does not match a document with `f = {}`, while it does
match a document where `f` resolves to `None`. -/
theorem C10_empty_mapping_like_absent (d : Doc) (f : String) :
    (getNVaux (.dict d) (splitDot f) = .dict [] →
      get_nested_value d f = .null ∧
      (∀ idx : Index, updOneField d f idx = .ok idx) ∧
      numContrib f d = none ∧
      keyOf d f = .null) ∧
    (resolveM (.dict d) (splitDot f) = some (.dict []) →
      matchDoc d [(f, .null)] = .ok false) ∧
    (resolveM (.dict d) (splitDot f) = some .null →
      matchDoc d [(f, .null)] = .ok true) := by
  refine ⟨?_, ?_, ?_⟩
  · intro hw
    have hnull : get_nested_value d f = .null := by
      unfold get_nested_value
      rw [hw]
      rfl
    refine ⟨hnull, fun idx => updOneField_eq_null idx hnull, ?_, hnull⟩
    unfold numContrib
    rw [hnull]
    rfl
  · intro hres
    unfold matchDoc
    rw [hres]
    rfl
  · intro hres
    unfold matchDoc
    rw [hres]
    rfl

/-- C10 witness: the theorem applied to a document carrying `f = {}` and
one where `f` is absent. -/
theorem C10_witness :
    getNVaux (.dict [("f", Value.dict [])]) (splitDot "f") = .dict [] ∧
    get_nested_value [("f", Value.dict [])] "f" = .null ∧
    numContrib "f" [("f", Value.dict [])] = none ∧
    matchDoc [("f", Value.dict [])] [("f", Value.null)] = Except.ok false ∧
    matchDoc [("g", Value.num 1)] [("f", Value.null)] = Except.ok true := by
  refine ⟨rfl, ?_, ?_, ?_, ?_⟩
  · exact ((C10_empty_mapping_like_absent [("f", Value.dict [])] "f").1 rfl).1
  · exact ((C10_empty_mapping_like_absent [("f", Value.dict [])] "f").1 rfl).2.2.1
  · exact (C10_empty_mapping_like_absent [("f", Value.dict [])] "f").2.1 rfl
  · exact (C10_empty_mapping_like_absent [("g", Value.num 1)] "f").2.2 rfl

theorem gAppend_none {acc : List (Value × List Doc)} {k : Value} {d : Doc}
    (h : ∀ p ∈ acc, pyEq k p.1 = false) :
    gAppend acc k d = acc ++ [(k, [d])] := by
  induction acc with
  | nil => rfl
  | cons p rest ih =>
    obtain ⟨k0, g⟩ := p
    simp only [gAppend]
    rw [if_neg (by rw [h (k0, g) (List.mem_cons_self _ _)]; simp)]
    rw [ih fun p' hp' => h p' (List.mem_cons_of_mem _ hp')]
    rfl

theorem map_fst_gmap (acc : List (Value × List Doc)) (k : Value) (d : Doc) :
    ((acc.map fun p => if pyEq k p.1 then (p.1, p.2 ++ [d]) else p).map Prod.fst) =
      acc.map Prod.fst := by
  induction acc with
  | nil => rfl
  | cons p rest ih =>
    simp only [List.map_cons]
    rw [ih]
    by_cases h : pyEq k p.1 = true
    · rw [if_pos h]
    · rw [if_neg h]

theorem gAppend_found {acc : List (Value × List Doc)} {k : Value} {d : Doc}
    (hk : hashableKey k = true)
    (hkeys : ∀ p ∈ acc, hashableKey p.1 = true)
    (hpw : (acc.map Prod.fst).Pairwise (fun a b => pyEq a b = false))
    (hex : ∃ p ∈ acc, pyEq k p.1 = true) :
    gAppend acc k d = acc.map (fun p => if pyEq k p.1 then (p.1, p.2 ++ [d]) else p) := by
  induction acc with
  | nil => simp at hex
  | cons p0 rest ih =>
    obtain ⟨k0, g⟩ := p0
    simp only [List.map_cons, List.pairwise_cons] at hpw
    by_cases h0 : pyEq k k0 = true
    · simp only [gAppend]
      rw [if_pos h0]
      simp only [List.map_cons]
      rw [if_pos h0]
      have : rest.map (fun p => if pyEq k p.1 then (p.1, p.2 ++ [d]) else p) =
          rest.map id := by
        apply List.map_congr_left
        intro p hp
        have hc : pyEq k p.1 = false := by
          cases hcc : pyEq k p.1
          · rfl
          · exfalso
            have hp1 : hashableKey p.1 = true := hkeys p (List.mem_cons_of_mem _ hp)
            have h0' : pyEq k0 k = true := by
              rw [pyEq_symm_h (hkeys (k0, g) (List.mem_cons_self _ _)) hk]
              exact h0
            have : pyEq k0 p.1 = true :=
              pyEq_trans_h (hkeys (k0, g) (List.mem_cons_self _ _)) hk hp1 h0' hcc
            have hne := hpw.1 p.1 (List.mem_map_of_mem Prod.fst hp)
            rw [hne] at this
            cases this
        rw [if_neg (by simp [hc])]
        rfl
      rw [this, List.map_id]
    · simp only [gAppend]
      rw [if_neg h0]
      simp only [List.map_cons]
      rw [if_neg h0]
      rcases hex with ⟨p, hp, hpe⟩
      rcases List.mem_cons.mp hp with rfl | hp
      · rw [hpe] at h0
        cases h0 rfl
      · rw [ih (fun p' hp' => hkeys p' (List.mem_cons_of_mem _ hp')) hpw.2 ⟨p, hp, hpe⟩]

theorem groupByAux_inv {fld : String} {ds : List Doc} :
    ∀ {P : List Doc} {acc : List (Value × List Doc)},
    (∀ p ∈ acc, hashableKey p.1 = true) →
    (∀ p ∈ acc, p.2 = P.filter (fun e => pyEq (keyOf e fld) p.1)) →
    (∀ e ∈ P, ∃ p ∈ acc, pyEq (keyOf e fld) p.1 = true) →
    (∀ e ∈ P, hashableKey (keyOf e fld) = true) →
    ((acc.map Prod.fst).Pairwise (fun a b => pyEq a b = false)) →
    (∀ e ∈ ds, hashableKey (keyOf e fld) = true) →
    ∃ gs, groupByAux fld acc ds = .ok gs ∧
      (∀ p ∈ gs, hashableKey p.1 = true) ∧
      (∀ p ∈ gs, p.2 = (P ++ ds).filter (fun e => pyEq (keyOf e fld) p.1)) ∧
      (∀ e ∈ P ++ ds, ∃ p ∈ gs, pyEq (keyOf e fld) p.1 = true) ∧
      ((gs.map Prod.fst).Pairwise (fun a b => pyEq a b = false)) := by
  induction ds with
  | nil =>
    intro P acc hkeys hfil hcov hPh hpw _
    exact ⟨acc, rfl, hkeys, by simpa using hfil, by simpa using hcov, hpw⟩
  | cons d ds ih =>
    intro P acc hkeys hfil hcov hPh hpw hdh
    have hk : hashableKey (keyOf d fld) = true := hdh d (List.mem_cons_self _ _)
    simp only [groupByAux]
    rw [if_pos hk]
    by_cases hex : ∃ p ∈ acc, pyEq (keyOf d fld) p.1 = true
    · rw [gAppend_found hk hkeys hpw hex]
      have := @ih (P ++ [d])
        (acc.map fun p => if pyEq (keyOf d fld) p.1 then (p.1, p.2 ++ [d]) else p)
        ?_ ?_ ?_ ?_ ?_ (fun e he => hdh e (List.mem_cons_of_mem _ he))
      · obtain ⟨gs, hgs, h1, h2, h3, h4⟩ := this
        refine ⟨gs, hgs, h1, ?_, ?_, h4⟩
        · intro p hp
          rw [h2 p hp]
          simp
        · intro e he
          apply h3
          simp only [List.append_assoc, List.cons_append, List.nil_append] at he ⊢
          exact he
      · intro p hp
        obtain ⟨q, hq, rfl⟩ := List.mem_map.mp hp
        by_cases hc : pyEq (keyOf d fld) q.1 = true
        · rw [if_pos hc]
          exact hkeys q hq
        · rw [if_neg hc]
          exact hkeys q hq
      · intro p hp
        obtain ⟨q, hq, rfl⟩ := List.mem_map.mp hp
        rw [List.filter_append]
        by_cases hc : pyEq (keyOf d fld) q.1 = true
        · rw [if_pos hc]
          simp only [List.filter_cons, List.filter_nil]
          rw [if_pos (by exact hc)]
          rw [hfil q hq]
        · rw [if_neg hc]
          simp only [List.filter_cons, List.filter_nil]
          rw [if_neg (by simp [hc])]
          rw [hfil q hq]
          simp
      · intro e he
        rcases List.mem_append.mp he with he | he
        · obtain ⟨p, hp, hpe⟩ := hcov e he
          refine ⟨if pyEq (keyOf d fld) p.1 then (p.1, p.2 ++ [d]) else p, List.mem_map_of_mem _ hp, ?_⟩
          by_cases hc : pyEq (keyOf d fld) p.1 = true
          · rw [if_pos hc]
            exact hpe
          · rw [if_neg hc]
            exact hpe
        · simp only [List.mem_singleton] at he
          subst he
          obtain ⟨p, hp, hpe⟩ := hex
          refine ⟨if pyEq (keyOf e fld) p.1 then (p.1, p.2 ++ [e]) else p, List.mem_map_of_mem _ hp, ?_⟩
          rw [if_pos hpe]
          exact hpe
      · intro e he
        rcases List.mem_append.mp he with he | he
        · exact hPh e he
        · simp only [List.mem_singleton] at he
          subst he
          exact hk
      · rw [map_fst_gmap]
        exact hpw
    · push_neg at hex
      have hnm : ∀ p ∈ acc, pyEq (keyOf d fld) p.1 = false := by
        intro p hp
        cases hc : pyEq (keyOf d fld) p.1
        · rfl
        · exact absurd hc (hex p hp)
      rw [gAppend_none hnm]
      have := @ih (P ++ [d]) (acc ++ [(keyOf d fld, [d])])
        ?_ ?_ ?_ ?_ ?_ (fun e he => hdh e (List.mem_cons_of_mem _ he))
      · obtain ⟨gs, hgs, h1, h2, h3, h4⟩ := this
        refine ⟨gs, hgs, h1, ?_, ?_, h4⟩
        · intro p hp
          rw [h2 p hp]
          simp
        · intro e he
          apply h3
          simp only [List.append_assoc, List.cons_append, List.nil_append] at he ⊢
          exact he
      · intro p hp
        rcases List.mem_append.mp hp with hp | hp
        · exact hkeys p hp
        · simp only [List.mem_singleton] at hp
          subst hp
          exact hk
      · intro p hp
        rcases List.mem_append.mp hp with hp | hp
        · rw [List.filter_append]
          simp only [List.filter_cons, List.filter_nil]
          rw [if_neg (by simp [hnm p hp])]
          rw [hfil p hp]
          simp
        · simp only [List.mem_singleton] at hp
          subst hp
          rw [List.filter_append]
          simp only [List.filter_cons, List.filter_nil]
          rw [if_pos (pyEq_refl_h hk)]
          have : P.filter (fun e => pyEq (keyOf e fld) (keyOf d fld)) = [] := by
            apply List.filter_eq_nil_iff.mpr
            intro e he
            simp only [Bool.not_eq_true]
            obtain ⟨p, hp, hpe⟩ := hcov e he
            cases hc : pyEq (keyOf e fld) (keyOf d fld)
            · rfl
            · exfalso
              have hpe' : pyEq (keyOf d fld) (keyOf e fld) = true := by
                rw [pyEq_symm_h hk (hPh e he)]
                exact hc
              have : pyEq (keyOf d fld) p.1 = true :=
                pyEq_trans_h hk (hPh e he) (hkeys p hp) hpe' hpe
              rw [hnm p hp] at this
              cases this
          rw [this]
          rfl
      · intro e he
        rcases List.mem_append.mp he with he | he
        · obtain ⟨p, hp, hpe⟩ := hcov e he
          exact ⟨p, List.mem_append.mpr (Or.inl hp), hpe⟩
        · simp only [List.mem_singleton] at he
          subst he
          exact ⟨(keyOf e fld, [e]), List.mem_append.mpr (Or.inr (List.mem_singleton.mpr rfl)),
            pyEq_refl_h hk⟩
      · intro e he
        rcases List.mem_append.mp he with he | he
        · exact hPh e he
        · simp only [List.mem_singleton] at he
          subst he
          exact hk
      · rw [List.map_append]
        rw [List.pairwise_append]
        refine ⟨hpw, by simp, ?_⟩
        intro a ha b hb
        simp only [List.map_cons, List.map_nil, List.mem_singleton] at hb
        subst hb
        obtain ⟨p, hp, rfl⟩ := List.mem_map.mp ha
        rw [pyEq_symm_h (hkeys p hp) hk]
        exact hnm p hp

/-- C4 (corrected).  `group_by` partitions the document set by the raw
resolved value under Python equality — not by its stringification (see
the counterexample): every group is exactly the in-order filter of the
document set by Python-equality with the group's key, every document
falls into a group, and group keys are pairwise non-equal.  It is defined
whenever every resolved value is hashable (not a sequence or a non-empty
mapping). -/
theorem C4_group_by_partitions (c : Collection) (fld : String)
    (h : ∀ d ∈ c.docs, hashableKey (keyOf d fld) = true) :
    ∃ gs, group_by c fld = .ok gs ∧
      (∀ p ∈ gs, p.2 = c.docs.filter (fun e => pyEq (keyOf e fld) p.1)) ∧
      (∀ d ∈ c.docs, ∃ p ∈ gs, pyEq (keyOf d fld) p.1 = true) ∧
      ((gs.map Prod.fst).Pairwise (fun a b => pyEq a b = false)) := by
  obtain ⟨gs, hgs, _, h2, h3, h4⟩ := @groupByAux_inv fld c.docs [] []
    (fun p hp => absurd hp (List.not_mem_nil p))
    (fun p hp => absurd hp (List.not_mem_nil p))
    (fun e he => absurd he (List.not_mem_nil e))
    (fun e he => absurd he (List.not_mem_nil e))
    List.Pairwise.nil h
  exact ⟨gs, hgs, fun p hp => by simpa using h2 p hp, fun d hd => h3 d (by simpa using hd), h4⟩

/-- C4 counterexample.  Two documents whose resolved values `1` and
`"1"` stringify identically land in two distinct groups keyed by the raw
values: grouping is not by the stringified value, contrary to the claim. -/
theorem C4_counterexample :
    stringify (Value.num 1) = stringify (Value.str "1") ∧
    group_by ⟨[[("_id", Value.str "1"), ("f", Value.num 1)],
        [("_id", Value.str "2"), ("f", Value.str "1")]], []⟩ "f" =
      Except.ok [(Value.num 1, [[("_id", Value.str "1"), ("f", Value.num 1)]]),
        (Value.str "1", [[("_id", Value.str "2"), ("f", Value.str "1")]])] :=
  ⟨rfl, rfl⟩

/-- C4 witness: the theorem applied to three documents with group values
`A`, `B`, `A`. -/
theorem C4_witness :
    (∀ d ∈ ([[("g", Value.str "A")], [("g", Value.str "B")], [("g", Value.str "A")]] :
        List Doc), hashableKey (keyOf d "g") = true) ∧
    ∃ gs, group_by ⟨[[("g", Value.str "A")], [("g", Value.str "B")],
        [("g", Value.str "A")]], []⟩ "g" = .ok gs ∧
      (∀ p ∈ gs, p.2 = ([[("g", Value.str "A")], [("g", Value.str "B")],
        [("g", Value.str "A")]] : List Doc).filter
          (fun e => pyEq (keyOf e "g") p.1)) ∧
      (∀ d ∈ ([[("g", Value.str "A")], [("g", Value.str "B")],
        [("g", Value.str "A")]] : List Doc), ∃ p ∈ gs, pyEq (keyOf d "g") p.1 = true) ∧
      ((gs.map Prod.fst).Pairwise (fun a b => pyEq a b = false)) := by
  have hh : ∀ d ∈ ([[("g", Value.str "A")], [("g", Value.str "B")],
      [("g", Value.str "A")]] : List Doc), hashableKey (keyOf d "g") = true := by
    intro d hd
    fin_cases hd <;> rfl
  exact ⟨hh, C4_group_by_partitions ⟨[[("g", Value.str "A")], [("g", Value.str "B")],
    [("g", Value.str "A")]], []⟩ "g" hh⟩

theorem quiAux_cons_nondict {idxs : Indexes} {fld : String} {v : Value}
    {rest : List (String × Value)} {acc : Option (List Value)}
    (hv : isDictV v = false) :
    quiAux idxs acc ((fld, v) :: rest) =
      (match idxs.lookup fld with
       | none => none
       | some idx =>
         if idx.isEmpty then none
         else
           match idx.lookup (stringify v) with
           | none => none
           | some b =>
             match acc with
             | none => quiAux idxs (some (dedupPy b)) rest
             | some m => quiAux idxs (some (interPy m (dedupPy b))) rest) := by
  cases v <;> first
    | rfl
    | (simp [isDictV] at hv)

theorem quiAux_cons_good {idxs : Indexes} {fld : String} {v : Value}
    {rest : List (String × Value)} {acc : Option (List Value)} {idx : Index}
    {b : List Value}
    (hv : isDictV v = false) (hl : idxs.lookup fld = some idx)
    (hie : idx.isEmpty = false) (hb : idx.lookup (stringify v) = some b) :
    quiAux idxs acc ((fld, v) :: rest) =
      (match acc with
       | none => quiAux idxs (some (dedupPy b)) rest
       | some m => quiAux idxs (some (interPy m (dedupPy b))) rest) := by
  rw [quiAux_cons_nondict hv, hl]
  simp only []
  rw [hie]
  simp only [Bool.false_eq_true, if_false]
  rw [hb]

theorem quiAux_cons_nolookup {idxs : Indexes} {fld : String} {v : Value}
    {rest : List (String × Value)} {acc : Option (List Value)}
    (hv : isDictV v = false) (hl : idxs.lookup fld = none) :
    quiAux idxs acc ((fld, v) :: rest) = none := by
  rw [quiAux_cons_nondict hv, hl]

theorem quiAux_cons_empty {idxs : Indexes} {fld : String} {v : Value}
    {rest : List (String × Value)} {acc : Option (List Value)} {idx : Index}
    (hv : isDictV v = false) (hl : idxs.lookup fld = some idx)
    (hie : idx.isEmpty = true) :
    quiAux idxs acc ((fld, v) :: rest) = none := by
  rw [quiAux_cons_nondict hv, hl]
  simp only []
  rw [hie]
  simp

theorem quiAux_cons_nobucket {idxs : Indexes} {fld : String} {v : Value}
    {rest : List (String × Value)} {acc : Option (List Value)} {idx : Index}
    (hv : isDictV v = false) (hl : idxs.lookup fld = some idx)
    (hie : idx.isEmpty = false) (hb : idx.lookup (stringify v) = none) :
    quiAux idxs acc ((fld, v) :: rest) = none := by
  rw [quiAux_cons_nondict hv, hl]
  simp only []
  rw [hie]
  simp only [Bool.false_eq_true, if_false]
  rw [hb]

theorem quiAux_some {idxs : Indexes} {q : List (String × Value)}
    (hgood : ∀ p ∈ q, goodClause idxs p = true) :
    ∀ m : List Value, ∃ S, quiAux idxs (some m) q = some S ∧
      ∀ si : String, memPy (.str si) S = true ↔
        (memPy (.str si) m = true ∧
         ∀ p ∈ q, memPy (.str si) (clauseBucket idxs p) = true) := by
  induction q with
  | nil =>
    intro m
    exact ⟨m, rfl, fun si => by simp⟩
  | cons p rest ih =>
    intro m
    obtain ⟨fld, v⟩ := p
    have hg := hgood (fld, v) (List.mem_cons_self _ _)
    unfold goodClause at hg
    simp only [Bool.and_eq_true, Bool.not_eq_true'] at hg
    obtain ⟨hv, hrest⟩ := hg
    cases hl : idxs.lookup fld with
    | none => rw [hl] at hrest; cases hrest
    | some idx =>
      rw [hl] at hrest
      simp only [Bool.and_eq_true, Bool.not_eq_true'] at hrest
      obtain ⟨hie, hbs⟩ := hrest
      cases hb : idx.lookup (stringify v) with
      | none => rw [hb] at hbs; cases hbs
      | some b =>
        obtain ⟨S, hS, hiff⟩ := ih
          (fun p' hp' => hgood p' (List.mem_cons_of_mem _ hp'))
          (interPy m (dedupPy b))
        refine ⟨S, by rw [quiAux_cons_good hv hl hie hb]; exact hS, ?_⟩
        intro si
        rw [hiff si, memPy_inter_str, Bool.and_eq_true, memPy_dedup_str]
        constructor
        · rintro ⟨⟨hm, hbm⟩, hrest'⟩
          refine ⟨hm, ?_⟩
          intro p' hp'
          rcases List.mem_cons.mp hp' with rfl | hp'
          · unfold clauseBucket bucketOf
            simp only [hl, Option.getD_some]
            rw [hb]
            exact hbm
          · exact hrest' p' hp'
        · rintro ⟨hm, hall⟩
          have hbm := hall (fld, v) (List.mem_cons_self _ _)
          unfold clauseBucket bucketOf at hbm
          simp only [hl, Option.getD_some] at hbm
          rw [hb] at hbm
          exact ⟨⟨hm, hbm⟩, fun p' hp' => hall p' (List.mem_cons_of_mem _ hp')⟩

theorem quiAux_start {idxs : Indexes} {q : List (String × Value)}
    (hgood : ∀ p ∈ q, goodClause idxs p = true) (hne : q ≠ []) :
    ∃ S, quiAux idxs none q = some S ∧
      ∀ si : String, memPy (.str si) S = true ↔
        ∀ p ∈ q, memPy (.str si) (clauseBucket idxs p) = true := by
  cases q with
  | nil => exact absurd rfl hne
  | cons p rest =>
    obtain ⟨fld, v⟩ := p
    have hg := hgood (fld, v) (List.mem_cons_self _ _)
    unfold goodClause at hg
    simp only [Bool.and_eq_true, Bool.not_eq_true'] at hg
    obtain ⟨hv, hrest⟩ := hg
    cases hl : idxs.lookup fld with
    | none => rw [hl] at hrest; cases hrest
    | some idx =>
      rw [hl] at hrest
      simp only [Bool.and_eq_true, Bool.not_eq_true'] at hrest
      obtain ⟨hie, hbs⟩ := hrest
      cases hb : idx.lookup (stringify v) with
      | none => rw [hb] at hbs; cases hbs
      | some b =>
        obtain ⟨S, hS, hiff⟩ := quiAux_some
          (fun p' hp' => hgood p' (List.mem_cons_of_mem _ hp')) (dedupPy b)
        refine ⟨S, by rw [quiAux_cons_good hv hl hie hb]; exact hS, ?_⟩
        intro si
        rw [hiff si, memPy_dedup_str]
        constructor
        · rintro ⟨hbm, hrest'⟩
          intro p' hp'
          rcases List.mem_cons.mp hp' with rfl | hp'
          · unfold clauseBucket bucketOf
            simp only [hl, Option.getD_some]
            rw [hb]
            exact hbm
          · exact hrest' p' hp'
        · intro hall
          have hbm := hall (fld, v) (List.mem_cons_self _ _)
          unfold clauseBucket bucketOf at hbm
          simp only [hl, Option.getD_some] at hbm
          rw [hb] at hbm
          exact ⟨hbm, fun p' hp' => hall p' (List.mem_cons_of_mem _ hp')⟩

theorem quiAux_bad {idxs : Indexes} {q : List (String × Value)} :
    ∀ {acc : Option (List Value)},
    (∃ p ∈ q, goodClause idxs p = false) → quiAux idxs acc q = none := by
  induction q with
  | nil =>
    rintro acc ⟨p, hp, _⟩
    simp at hp
  | cons p rest ih =>
    intro acc hbad
    obtain ⟨fld, v⟩ := p
    by_cases hg : goodClause idxs (fld, v) = true
    · have hbad' : ∃ p ∈ rest, goodClause idxs p = false := by
        rcases hbad with ⟨p', hp', hgp'⟩
        rcases List.mem_cons.mp hp' with rfl | hp'
        · rw [hg] at hgp'; cases hgp'
        · exact ⟨p', hp', hgp'⟩
      unfold goodClause at hg
      simp only [Bool.and_eq_true, Bool.not_eq_true'] at hg
      obtain ⟨hv, hrest⟩ := hg
      cases hl : idxs.lookup fld with
      | none => exact quiAux_cons_nolookup hv hl
      | some idx =>
        rw [hl] at hrest
        simp only [Bool.and_eq_true, Bool.not_eq_true'] at hrest
        obtain ⟨hie, hbs⟩ := hrest
        cases hb : idx.lookup (stringify v) with
        | none => rw [hb] at hbs; cases hbs
        | some b =>
          rw [quiAux_cons_good hv hl hie hb]
          cases acc with
          | none => exact ih hbad'
          | some m => exact ih hbad'
    · rw [Bool.not_eq_true] at hg
      unfold goodClause at hg
      cases hv : isDictV v with
      | true =>
        cases v <;> simp [isDictV] at hv ⊢
        rfl
      | false =>
        rw [hv] at hg
        simp only [Bool.not_false, Bool.true_and] at hg
        cases hl : idxs.lookup fld with
        | none => exact quiAux_cons_nolookup hv hl
        | some idx =>
          rw [hl] at hg
          simp only [Bool.and_eq_false_iff, Bool.not_eq_false'] at hg
          rcases hg with hg | hg
          · exact quiAux_cons_empty hv hl hg
          · cases hb : idx.lookup (stringify v) with
            | none =>
              cases hie : idx.isEmpty with
              | true => exact quiAux_cons_empty hv hl hie
              | false => exact quiAux_cons_nobucket hv hl hie hb
            | some b =>
              rw [hb] at hg
              simp at hg

theorem find_eq_scan {c : Collection} {q : List (String × Value)}
    (h : query_using_indexes c.indexes q = none) :
    find c q = filterMatch q c.docs := by
  unfold find
  rw [h]
  rfl

/-- C5 (corrected).  When every clause of a non-empty query is a plain
value whose field has a registered, non-empty index containing a bucket
for the stringified value, consultation returns the intersection of the
buckets.  But if any clause fails those conditions — an operator
document, an unregistered field, an empty index (Python's falsy `{}`), or
a missing bucket — consultation returns `None` and `find` falls back to a
full scan; a missing bucket does NOT short-circuit to an empty result as
the claim states (see the counterexample). -/
theorem C5_consultation_contract (idxs : Indexes) (q : List (String × Value))
    (docs : List Doc) :
    ((q ≠ [] ∧ ∀ p ∈ q, goodClause idxs p = true) →
      ∃ S, query_using_indexes idxs q = some S ∧
        ∀ si : String, memPy (.str si) S = true ↔
          ∀ p ∈ q, memPy (.str si) (clauseBucket idxs p) = true) ∧
    ((q = [] ∨ ∃ p ∈ q, goodClause idxs p = false) →
      query_using_indexes idxs q = none) ∧
    (query_using_indexes idxs q = none →
      find ⟨docs, idxs⟩ q = filterMatch q docs) := by
  refine ⟨?_, ?_, fun h => find_eq_scan h⟩
  · rintro ⟨hne, hgood⟩
    exact quiAux_start hgood hne
  · rintro (rfl | hbad)
    · rfl
    · exact quiAux_bad hbad

/-- C5 counterexample.  Field `f` has a registered non-empty index but no
bucket for the query value's stringification: the claim demands an empty
result, yet consultation is skipped (`None`) and the full scan returns a
matching document. -/
theorem C5_counterexample :
    query_using_indexes [("f", [("x", [Value.str "zz"])])] [("f", Value.null)] =
      none ∧
    find ⟨[[("_id", Value.str "1")]], [("f", [("x", [Value.str "zz"])])]⟩
        [("f", Value.null)] =
      Except.ok [[("_id", Value.str "1")]] := ⟨rfl, rfl⟩

/-- C5 witness: the intersection conjunct applied to a two-field query
whose buckets share the id `"y"`. -/
theorem C5_witness :
    (([("a", Value.num 1), ("b", Value.num 2)] : List (String × Value)) ≠ [] ∧
      ∀ p ∈ ([("a", Value.num 1), ("b", Value.num 2)] : List (String × Value)),
        goodClause [("a", [("1", [Value.str "x", Value.str "y"])]),
          ("b", [("2", [Value.str "y"])])] p = true) ∧
    ∃ S, query_using_indexes [("a", [("1", [Value.str "x", Value.str "y"])]),
        ("b", [("2", [Value.str "y"])])] [("a", Value.num 1), ("b", Value.num 2)] =
        some S ∧
      ∀ si : String, memPy (.str si) S = true ↔
        ∀ p ∈ ([("a", Value.num 1), ("b", Value.num 2)] : List (String × Value)),
          memPy (.str si) (clauseBucket [("a", [("1", [Value.str "x", Value.str "y"])]),
            ("b", [("2", [Value.str "y"])])] p) = true := by
  have hg : ∀ p ∈ ([("a", Value.num 1), ("b", Value.num 2)] : List (String × Value)),
      goodClause [("a", [("1", [Value.str "x", Value.str "y"])]),
        ("b", [("2", [Value.str "y"])])] p = true := by
    intro p hp
    fin_cases hp <;> rfl
  have hne : ([("a", Value.num 1), ("b", Value.num 2)] : List (String × Value)) ≠ [] :=
    fun h => List.noConfusion h
  exact ⟨⟨hne, hg⟩, (C5_consultation_contract
    [("a", [("1", [Value.str "x", Value.str "y"])]), ("b", [("2", [Value.str "y"])])]
    [("a", Value.num 1), ("b", Value.num 2)] []).1 ⟨hne, hg⟩⟩

theorem matchDoc_cons_plain {d : Doc} {k : String} {v : Value}
    {rest : List (String × Value)} (hv : isDictV v = false) :
    matchDoc d ((k, v) :: rest) =
      (match resolveM (.dict d) (splitDot k) with
       | none => .ok false
       | some val => if pyEq val v then matchDoc d rest else .ok false) := by
  conv_lhs => unfold matchDoc
  cases hr : resolveM (.dict d) (splitDot k) with
  | none => rfl
  | some val =>
    cases v <;> first
      | rfl
      | (simp [isDictV] at hv)

theorem matchDoc_plain_total {q : List (String × Value)}
    (hq : ∀ p ∈ q, isDictV p.2 = false) (d : Doc) :
    ∃ b, matchDoc d q = .ok b := by
  induction q with
  | nil => exact ⟨true, rfl⟩
  | cons p rest ih =>
    obtain ⟨k, v⟩ := p
    rw [matchDoc_cons_plain (hq (k, v) (List.mem_cons_self _ _))]
    cases hr : resolveM (.dict d) (splitDot k) with
    | none => exact ⟨false, rfl⟩
    | some val =>
      simp only []
      by_cases hpe : pyEq val v = true
      · rw [if_pos hpe]
        exact ih fun p' hp' => hq p' (List.mem_cons_of_mem _ hp')
      · rw [if_neg hpe]
        exact ⟨false, rfl⟩

theorem matchDoc_true_clauses {q : List (String × Value)}
    (hq : ∀ p ∈ q, isDictV p.2 = false) {d : Doc}
    (h : matchDoc d q = .ok true) :
    ∀ p ∈ q, ∃ val, resolveM (.dict d) (splitDot p.1) = some val ∧
      pyEq val p.2 = true := by
  induction q with
  | nil => intro p hp; simp at hp
  | cons p0 rest ih =>
    obtain ⟨k, v⟩ := p0
    rw [matchDoc_cons_plain (hq (k, v) (List.mem_cons_self _ _))] at h
    intro p hp
    cases hr : resolveM (.dict d) (splitDot k) with
    | none => rw [hr] at h; cases h
    | some val =>
      rw [hr] at h
      simp only [] at h
      by_cases hpe : pyEq val v = true
      · rw [if_pos hpe] at h
        rcases List.mem_cons.mp hp with rfl | hp
        · exact ⟨val, hr, hpe⟩
        · exact ih (fun p' hp' => hq p' (List.mem_cons_of_mem _ hp')) h p hp
      · rw [if_neg hpe] at h
        cases h

theorem resolveM_getNV {ks : List String} :
    ∀ {u v : Value}, resolveM u ks = some v → v ≠ .null → getNVaux u ks = v := by
  induction ks with
  | nil =>
    intro u v h _
    simp only [resolveM] at h
    cases h
    cases u <;> rfl
  | cons k ks ih =>
    intro u v h hnn
    cases u with
    | dict e =>
      simp only [resolveM] at h
      cases hl : e.lookup k with
      | none =>
        rw [hl] at h
        simp only [Option.getD_none] at h
        cases ks with
        | nil => cases h; exact absurd rfl hnn
        | cons k' ks' => cases h
      | some w =>
        rw [hl] at h
        simp only [Option.getD_some] at h
        show getNVaux ((e.lookup k).getD (.dict [])) ks = v
        rw [hl]
        exact ih h hnn
    | null => cases h
    | bool b => cases h
    | num n => cases h
    | str s => cases h
    | list l => cases h

theorem pyEq_dictnil_false {v : Value} (hv : isDictV v = false) :
    pyEq v (.dict []) = false := by
  cases v <;> simp [pyEq, isDictV] at hv ⊢

theorem get_nested_value_of_resolve {d : Doc} {f : String} {v : Value}
    (hres : resolveM (.dict d) (splitDot f) = some v) (hnn : v ≠ .null)
    (hnd : isDictV v = false) :
    get_nested_value d f = v := by
  unfold get_nested_value
  rw [resolveM_getNV hres hnn]
  simp only []
  rw [pyEq_dictnil_false hnd]
  rfl

theorem firstMatch_skip_all {q : List (String × Value)} {ds : List Doc}
    (h : ∀ d ∈ ds, matchDoc d q = .ok false) (ds2 : List Doc) :
    firstMatch q (ds ++ ds2) = firstMatch q ds2 := by
  induction ds with
  | nil => rfl
  | cons d rest ih =>
    simp only [List.cons_append, firstMatch]
    rw [okBind (h d (List.mem_cons_self _ _))]
    exact ih fun e he => h e (List.mem_cons_of_mem _ he)

theorem firstMatch_hit {q : List (String × Value)} {d : Doc} (ds : List Doc)
    (h : matchDoc d q = .ok true) :
    firstMatch q (d :: ds) = .ok (some d) := by
  simp only [firstMatch]
  rw [okBind h]
  rfl

theorem filterByIds_ok {S : List Value} {ds : List Doc}
    (hids : ∀ d ∈ ds, ∃ s, docId d = some (.str s)) :
    ∃ dsF, filterByIds S ds = .ok dsF ∧ ∀ x ∈ dsF, x ∈ ds := by
  induction ds with
  | nil => exact ⟨[], rfl, by simp⟩
  | cons d rest ih =>
    obtain ⟨s, hs⟩ := hids d (List.mem_cons_self _ _)
    obtain ⟨dsF, hF, hmem⟩ := ih fun e he => hids e (List.mem_cons_of_mem _ he)
    simp only [filterByIds]
    rw [hs]
    simp only []
    refine ⟨if memPy (.str s) S then d :: dsF else dsF, ?_, ?_⟩
    · rw [okBind hF]
    · intro x hx
      by_cases hm : memPy (.str s) S = true
      · rw [if_pos hm] at hx
        rcases List.mem_cons.mp hx with rfl | hx
        · exact List.mem_cons_self _ _
        · exact List.mem_cons_of_mem _ (hmem x hx)
      · rw [if_neg hm] at hx
        exact List.mem_cons_of_mem _ (hmem x hx)

theorem filterByIds_append {S : List Value} {a b : List Doc} {fa fb : List Doc}
    (h1 : filterByIds S a = .ok fa) (h2 : filterByIds S b = .ok fb) :
    filterByIds S (a ++ b) = .ok (fa ++ fb) := by
  induction a generalizing fa with
  | nil =>
    cases h1
    simpa using h2
  | cons d rest ih =>
    simp only [filterByIds] at h1
    cases hs : docId d with
    | none => rw [hs] at h1; cases h1
    | some i =>
      rw [hs] at h1
      simp only [] at h1
      obtain ⟨r, hr, h3⟩ := bindOk h1
      simp only [Except.ok.injEq] at h3
      subst h3
      show filterByIds S (d :: (rest ++ b)) = _
      simp only [filterByIds]
      rw [hs]
      simp only []
      rw [okBind (ih hr)]
      by_cases hm : memPy i S = true
      · rw [if_pos hm, if_pos hm]
        rfl
      · rw [if_neg hm, if_neg hm]

theorem filterByIds_single_in {S : List Value} {d : Doc} {i : Value}
    (hs : docId d = some i) (hm : memPy i S = true) :
    filterByIds S [d] = .ok [d] := by
  simp only [filterByIds]
  rw [hs]
  simp only []
  show Except.ok (if memPy i S = true then [d] else []) = Except.ok [d]
  rw [if_pos hm]

theorem filterMatch_cons_ok {q : List (String × Value)} {d : Doc} {ds : List Doc}
    {b : Bool} (hb : matchDoc d q = .ok b) :
    filterMatch q (d :: ds) =
      (filterMatch q ds) >>= fun r => .ok (if b then d :: r else r) := by
  simp only [filterMatch]
  rw [okBind hb]

theorem filterMatch_filterByIds {q : List (String × Value)} {S : List Value}
    {ds : List Doc}
    (hids : ∀ d ∈ ds, ∃ s, docId d = some (.str s))
    (htot : ∀ d ∈ ds, ∃ b, matchDoc d q = .ok b)
    (hmem : ∀ d ∈ ds, matchDoc d q = .ok true →
      ∀ i, docId d = some i → memPy i S = true) :
    ∃ dsF, filterByIds S ds = .ok dsF ∧ filterMatch q dsF = filterMatch q ds := by
  induction ds with
  | nil => exact ⟨[], rfl, rfl⟩
  | cons d rest ih =>
    obtain ⟨s, hs⟩ := hids d (List.mem_cons_self _ _)
    obtain ⟨dsF, hF, heq⟩ := ih (fun e he => hids e (List.mem_cons_of_mem _ he))
      (fun e he => htot e (List.mem_cons_of_mem _ he))
      (fun e he => hmem e (List.mem_cons_of_mem _ he))
    obtain ⟨b, hb⟩ := htot d (List.mem_cons_self _ _)
    simp only [filterByIds]
    rw [hs]
    simp only []
    by_cases hm : memPy (.str s) S = true
    · refine ⟨d :: dsF, by rw [okBind hF, if_pos hm], ?_⟩
      rw [filterMatch_cons_ok hb, filterMatch_cons_ok hb, heq]
    · refine ⟨dsF, by rw [okBind hF, if_neg hm], ?_⟩
      cases b with
      | true =>
        exact absurd (hmem d (List.mem_cons_self _ _) hb (.str s) hs) hm
      | false =>
        rw [filterMatch_cons_ok hb, heq]
        cases hr : filterMatch q rest with
        | error e => rfl
        | ok r => rfl

theorem qui_noidx (q : List (String × Value)) :
    query_using_indexes ([] : Indexes) q = none := by
  cases q with
  | nil => rfl
  | cons p rest =>
    obtain ⟨k, v⟩ := p
    cases hv : isDictV v with
    | true =>
      cases v <;> simp [isDictV] at hv ⊢
      rfl
    | false => exact quiAux_cons_nolookup hv rfl

theorem qui_some_good {idxs : Indexes} {q : List (String × Value)} {S : List Value}
    (h : query_using_indexes idxs q = some S) :
    q ≠ [] ∧ ∀ p ∈ q, goodClause idxs p = true := by
  constructor
  · rintro rfl
    cases h
  · intro p hp
    cases hg : goodClause idxs p with
    | true => rfl
    | false =>
      unfold query_using_indexes at h
      rw [quiAux_bad ⟨p, hp, hg⟩] at h
      cases h

theorem qui_single_inv {idxs : Indexes} {fld : String} {v : Value} {S : List Value}
    (hv : isDictV v = false)
    (h : query_using_indexes idxs [(fld, v)] = some S) :
    ∃ idx b, idxs.lookup fld = some idx ∧ idx.isEmpty = false ∧
      idx.lookup (stringify v) = some b ∧ S = dedupPy b := by
  unfold query_using_indexes at h
  cases hl : idxs.lookup fld with
  | none => rw [quiAux_cons_nolookup hv hl] at h; cases h
  | some idx =>
    cases hie : idx.isEmpty with
    | true => rw [quiAux_cons_empty hv hl hie] at h; cases h
    | false =>
      cases hb : idx.lookup (stringify v) with
      | none => rw [quiAux_cons_nobucket hv hl hie hb] at h; cases h
      | some b =>
        rw [quiAux_cons_good hv hl hie hb] at h
        simp only [quiAux, Option.some.injEq] at h
        refine ⟨idx, b, rfl, hie, hb, ?_⟩
        rw [h]

theorem resolveM_nil (u : Value) : resolveM u [] = some u := by
  cases u <;> rfl

theorem resolveM_single (e : Doc) (k : String) :
    resolveM (.dict e) [k] = some ((e.lookup k).getD .null) := by
  show resolveM ((e.lookup k).getD .null) [] = _
  exact resolveM_nil _

/-- C9 (confirmed).  Inserting an `_id`-less document and looking it up by
the assigned `_id` returns exactly the document extended with that `_id`,
in any prior collection state whose documents carry string ids distinct
from the fresh one (what uuid freshness guarantees) — whether or not an
`_id` index is registered. -/
theorem C9_roundtrip (c : Collection) (d : Doc) (i : String)
    (hd : d.lookup "_id" = none)
    (hold : ∀ e ∈ c.docs, ∃ s, docId e = some (.str s) ∧ s ≠ i) :
    ∃ c', insert_one c d i = .ok c' ∧
      find_one c' [("_id", .str i)] = .ok (some (d ++ [("_id", .str i)])) := by
  have hidd : docId (d ++ [("_id", Value.str i)]) = some (Value.str i) :=
    docId_append_id hd
  obtain ⟨idxs', hui⟩ := update_indexes_ok c.indexes hidd
  have hins : insert_one c d i = .ok ⟨c.docs ++ [d ++ [("_id", Value.str i)]], idxs'⟩ := by
    unfold insert_one
    rw [hd]
    simp only [Option.isSome_none, Bool.false_eq_true, if_false]
    rw [okBind hui]
  have hresnd : resolveM (.dict (d ++ [("_id", Value.str i)])) (splitDot "_id") =
      some (Value.str i) := by
    rw [show splitDot "_id" = ["_id"] from rfl, resolveM_single]
    unfold docId at hidd
    rw [hidd]
    rfl
  have hmnd : matchDoc (d ++ [("_id", Value.str i)]) [("_id", Value.str i)] =
      .ok true := by
    rw [matchDoc_cons_plain (by rfl)]
    rw [hresnd]
    simp only []
    rw [if_pos (pyEq_str_self i)]
    rfl
  have hmold : ∀ e ∈ c.docs, matchDoc e [("_id", Value.str i)] = .ok false := by
    intro e he
    obtain ⟨s, hs, hne⟩ := hold e he
    rw [matchDoc_cons_plain (by rfl)]
    rw [show splitDot "_id" = ["_id"] from rfl, resolveM_single]
    unfold docId at hs
    rw [hs]
    simp only [Option.getD_some]
    rw [if_neg (by simp [pyEq, beq_false_of_ne hne])]
  refine ⟨_, hins, ?_⟩
  unfold find_one
  cases hq : query_using_indexes idxs' [("_id", Value.str i)] with
  | none =>
    show firstMatch [("_id", Value.str i)] (c.docs ++ [d ++ [("_id", Value.str i)]]) =
      .ok (some (d ++ [("_id", Value.str i)]))
    rw [firstMatch_skip_all hmold]
    exact firstMatch_hit _ hmnd
  | some S =>
    obtain ⟨idx', b, hl', hie', hb', hSb⟩ := qui_single_inv (by rfl) hq
    have hgnv : get_nested_value (d ++ [("_id", Value.str i)]) "_id" = Value.str i :=
      get_nested_value_of_resolve hresnd (by simp) (by rfl)
    obtain ⟨idx0, hf⟩ : ∃ idx0, c.indexes.lookup "_id" = some idx0 := by
      cases hf : c.indexes.lookup "_id" with
      | none => exact absurd (update_indexes_lookup_none hui hf) (by rw [hl']; simp)
      | some idx0 => exact ⟨idx0, rfl⟩
    obtain ⟨idx1, hu1, hl1⟩ := update_indexes_lookup_some hui hf
    obtain rfl : idx1 = idx' := Option.some.inj (hl1.symm.trans hl')
    obtain ⟨b1, hb1, hmem1⟩ := updOneField_mem hu1 (by rw [hgnv]; simp) hidd
      (pyEq_str_self i)
    rw [hgnv] at hb1
    have hbb : b = b1 := Option.some.inj (hb'.symm.trans hb1)
    subst hbb
    have hmemS : memPy (Value.str i) S = true := by
      rw [hSb, memPy_dedup_str]
      exact hmem1
    obtain ⟨fa, hfa, hfamem⟩ := @filterByIds_ok S c.docs
      (fun e he => (hold e he).imp fun s hs => hs.1)
    have hfnd := filterByIds_single_in hidd hmemS
    show (do
      let data ← filterByIds S (c.docs ++ [d ++ [("_id", Value.str i)]])
      firstMatch [("_id", Value.str i)] data) = _
    rw [okBind (filterByIds_append hfa hfnd)]
    rw [firstMatch_skip_all (fun e he => hmold e (hfamem e he))]
    exact firstMatch_hit _ hmnd

/-- C9 witness: the theorem applied to inserting `{name: Bob}` with fresh
id `"fresh"` into a collection holding one document with id `"z"` and a
registered (even) `_id` index. -/
theorem C9_witness :
    ([("name", Value.str "Bob")] : Doc).lookup "_id" = none ∧
    (∀ e ∈ ([[("_id", Value.str "z"), ("x", Value.num 9)]] : List Doc),
      ∃ s, docId e = some (.str s) ∧ s ≠ "fresh") ∧
    ∃ c', insert_one ⟨[[("_id", Value.str "z"), ("x", Value.num 9)]],
        [("_id", [])]⟩ [("name", Value.str "Bob")] "fresh" = .ok c' ∧
      find_one c' [("_id", Value.str "fresh")] =
        .ok (some ([("name", Value.str "Bob")] ++ [("_id", Value.str "fresh")])) := by
  have ho : ∀ e ∈ ([[("_id", Value.str "z"), ("x", Value.num 9)]] : List Doc),
      ∃ s, docId e = some (.str s) ∧ s ≠ "fresh" := by
    intro e he
    simp only [List.mem_singleton] at he
    subst he
    exact ⟨"z", rfl, by simp⟩
  exact ⟨rfl, ho, C9_roundtrip ⟨[[("_id", Value.str "z"), ("x", Value.num 9)]],
    [("_id", [])]⟩ [("name", Value.str "Bob")] "fresh" rfl ho⟩

/-- C1 counterexample: the same query returns different results before and
after `create_index`.  Document 1 lacks field `f`, so the scan resolves it
to `None` and `\x7bf: None\x7d` matches it; document 2 holds the string
`"None"`.  After `create_index("f")` the index has only the bucket
`"None" -> ["2"]` (document 1 is skipped as null), the query value `None`
stringifies to `"None"`, so consultation returns ids `["2"]`, document 1
is filtered away, and `find` returns `[]` instead of `[doc1]`. -/
theorem C1_counterexample :
    find ⟨[[("_id", Value.str "1")],
           [("_id", Value.str "2"), ("f", Value.str "None")]], []⟩
        [("f", Value.null)] = .ok [[("_id", Value.str "1")]] ∧
    (do
      let c' ← create_index ⟨[[("_id", Value.str "1")],
           [("_id", Value.str "2"), ("f", Value.str "None")]], []⟩ "f"
      find c' [("f", Value.null)]) = .ok ([] : List Doc) :=
  ⟨rfl, rfl⟩

/-- C1 (corrected).  Creating an index is transparent for `find` — the
indexed path returns exactly what the full scan would — only under side
conditions the code does not enforce: every document has a string `_id`,
every query value is a plain (non-mapping) value that is not `None`, and
query values are rigid for Python equality on the resolved values (no
cross-type `==` aliasing such as `True == 1`).  Without them (null query
values whose stringification collides with a stored string, as in the
counterexample) the two paths disagree. -/
theorem C1_find_index_transparent (docs : List Doc) (f : String)
    (q : List (String × Value)) (c' : Collection)
    (hids : ∀ d ∈ docs, ∃ s, docId d = some (.str s))
    (hplain : ∀ p ∈ q, isDictV p.2 = false)
    (hnn : ∀ p ∈ q, p.2 ≠ .null)
    (hrigid : ∀ p ∈ q, ∀ d ∈ docs, ∀ val,
      resolveM (.dict d) (splitDot p.1) = some val →
      pyEq val p.2 = true → val = p.2)
    (hc : create_index ⟨docs, []⟩ f = .ok c') :
    find c' q = find ⟨docs, []⟩ q := by
  obtain ⟨idxs', hrep, rfl⟩ := create_index_eq hc
  have haupd : aUpd ([] : Indexes) f [] = [(f, ([] : Index))] := rfl
  rw [haupd] at hrep
  have hrhs : find ⟨docs, ([] : Indexes)⟩ q = filterMatch q docs :=
    find_eq_scan (qui_noidx q)
  cases hq : query_using_indexes idxs' q with
  | none =>
    rw [hrhs]
    exact find_eq_scan hq
  | some S =>
    obtain ⟨hne, hgood⟩ := qui_some_good hq
    have hfld : ∀ p ∈ q, p.1 = f := by
      intro p hp
      by_contra hpf
      have hnone : idxs'.lookup p.1 = none :=
        replay_lookup_none hrep
          ((lookup_cons_ne ([] : Index) [] hpf).trans rfl)
      have hg := hgood p hp
      unfold goodClause at hg
      rw [hnone] at hg
      simp at hg
    have hmem : ∀ d ∈ docs, matchDoc d q = .ok true →
        ∀ i, docId d = some i → memPy i S = true := by
      intro d hd hm i hi
      obtain ⟨s, hs⟩ := hids d hd
      obtain rfl : i = Value.str s := by
        rw [hi] at hs
        exact Option.some.inj hs
      have hclauses := matchDoc_true_clauses hplain hm
      obtain ⟨S0, hS0, hiff⟩ := quiAux_start hgood hne
      obtain rfl : S0 = S := by
        unfold query_using_indexes at hq
        rw [hS0] at hq
        exact Option.some.inj hq
      refine (hiff s).mpr ?_
      intro p hp
      obtain ⟨val, hres, hpe⟩ := hclauses p hp
      obtain rfl : val = p.2 := hrigid p hp d hd val hres hpe
      have hgnv : get_nested_value d p.1 = p.2 :=
        get_nested_value_of_resolve hres (hnn p hp) (hplain p hp)
      have hpf := hfld p hp
      rw [hpf] at hgnv
      have hstart : ([(f, ([] : Index))] : Indexes).lookup f = some [] :=
        lookup_cons_eq f [] []
      obtain ⟨idx', hidx', hmemb⟩ := replay_complete hrep hstart d hd
        (by rw [hgnv]; exact hnn p hp) (Value.str s) hi (pyEq_str_self s)
      unfold clauseBucket
      rw [hpf, hidx']
      rw [hgnv] at hmemb
      simpa using hmemb
    obtain ⟨dsF, hF, heq⟩ := filterMatch_filterByIds hids
      (fun d _ => matchDoc_plain_total hplain d) hmem
    rw [hrhs]
    show (do
      let data ←
        match query_using_indexes idxs' q with
        | none => pure docs
        | some ids => filterByIds ids docs
      filterMatch q data) = filterMatch q docs
    rw [hq]
    simp only []
    rw [okBind hF]
    exact heq

/-- C1 witness: the theorem applied to a one-document collection, field
`g` holding the string `"x"`, and the query `\x7bg: "x"\x7d`; all side
conditions hold and are discharged concretely. -/
theorem C1_witness :
    (∀ d ∈ ([[("_id", Value.str "a"), ("g", Value.str "x")]] : List Doc),
      ∃ s, docId d = some (.str s)) ∧
    (∀ p ∈ ([("g", Value.str "x")] : List (String × Value)),
      isDictV p.2 = false) ∧
    (∀ p ∈ ([("g", Value.str "x")] : List (String × Value)), p.2 ≠ .null) ∧
    (∀ p ∈ ([("g", Value.str "x")] : List (String × Value)),
      ∀ d ∈ ([[("_id", Value.str "a"), ("g", Value.str "x")]] : List Doc),
      ∀ val, resolveM (.dict d) (splitDot p.1) = some val →
        pyEq val p.2 = true → val = p.2) ∧
    create_index ⟨[[("_id", Value.str "a"), ("g", Value.str "x")]], []⟩ "g" =
      .ok ⟨[[("_id", Value.str "a"), ("g", Value.str "x")]],
           [("g", [("x", [Value.str "a"])])]⟩ ∧
    find ⟨[[("_id", Value.str "a"), ("g", Value.str "x")]],
          [("g", [("x", [Value.str "a"])])]⟩ [("g", Value.str "x")] =
      find ⟨[[("_id", Value.str "a"), ("g", Value.str "x")]], []⟩
        [("g", Value.str "x")] := by
  have hids : ∀ d ∈ ([[("_id", Value.str "a"), ("g", Value.str "x")]] : List Doc),
      ∃ s, docId d = some (.str s) := by
    intro d hd
    simp only [List.mem_singleton] at hd
    subst hd
    exact ⟨"a", rfl⟩
  have hplain : ∀ p ∈ ([("g", Value.str "x")] : List (String × Value)),
      isDictV p.2 = false := by
    intro p hp
    simp only [List.mem_singleton] at hp
    subst hp
    rfl
  have hnn : ∀ p ∈ ([("g", Value.str "x")] : List (String × Value)),
      p.2 ≠ .null := by
    intro p hp
    simp only [List.mem_singleton] at hp
    subst hp
    simp
  have hrigid : ∀ p ∈ ([("g", Value.str "x")] : List (String × Value)),
      ∀ d ∈ ([[("_id", Value.str "a"), ("g", Value.str "x")]] : List Doc),
      ∀ val, resolveM (.dict d) (splitDot p.1) = some val →
        pyEq val p.2 = true → val = p.2 := by
    intro p hp d hd val hres hpe
    simp only [List.mem_singleton] at hp hd
    subst hp
    subst hd
    have : resolveM (.dict [("_id", Value.str "a"), ("g", Value.str "x")])
        (splitDot "g") = some (Value.str "x") := rfl
    rw [this] at hres
    exact (Option.some.inj hres).symm
  exact ⟨hids, hplain, hnn, hrigid, rfl,
    C1_find_index_transparent [[("_id", Value.str "a"), ("g", Value.str "x")]]
      "g" [("g", Value.str "x")] _ hids hplain hnn hrigid rfl⟩

end JsonDB
